import Mathlib

/-! # Event broadcaster of `pkg/controller/volume/persistentvolume/scheduler_events.go`

A shallow embedding of the `broadcaster` type and of its three methods
`Register`, `Unregister` and `Broadcast`, together with the Go channel operations
they rely on (`make`, `close`, non-blocking send, receive).

Every method body runs under `b.mutex`, so a method call is one atomic step on the
state; the lock itself is not part of the state.  A Go panic, and a call that does
not return, are both the result `none`.  Consumers only receive from the channels
`Register` hands them.
-/

namespace persistentvolume

/-- A Go channel `chan int`: the buffered values (oldest first), the capacity given
to `make`, and whether `close` has been called on it. -/
structure Chan where
  buf : List Int
  cap : Nat
  closed : Bool
deriving DecidableEq, Repr

/-- A channel value is a reference to a channel object: its index in the store. -/
abbrev ChanRef := Nat

/-- The channel objects allocated so far, in allocation order. -/
abbrev Heap := List Chan

/-- The Go expression `make(chan int, n)`: a new open channel with an empty buffer. -/
def makeChan (n : Nat) : Chan := { buf := [], cap := n, closed := false }

/-- The Go statement `close(c)`.  Closing a closed channel panics. -/
def closeChan (h : Heap) (c : ChanRef) : Option Heap :=
  match h[c]? with
  | none => none
  | some ch => if ch.closed then none else some (h.set c { ch with closed := true })

/-- The Go statement `select { case c <- v: ...; default: ... }`: a send that does not
block.  The value is appended when the buffer has room and dropped otherwise; a send
on a closed channel panics. -/
def trySend (h : Heap) (c : ChanRef) (v : Int) : Option Heap :=
  match h[c]? with
  | none => none
  | some ch =>
    if ch.closed then none
    else if ch.buf.length < ch.cap then some (h.set c { ch with buf := ch.buf ++ [v] })
    else some h

/-- What a consumer's receive `v, ok := <-c` observes. -/
inductive RecvResult where
  | value (v : Int)
  | closed
deriving DecidableEq, Repr

/-- The Go expression `<-c` in the consumer.  A buffered value is handed out first,
also on a closed channel; an empty closed channel yields the closed signal; an empty
open channel blocks (`none`). -/
def recv (h : Heap) (c : ChanRef) : Option (RecvResult × Heap) :=
  match h[c]? with
  | none => none
  | some ch =>
    match ch.buf with
    | v :: rest => some (RecvResult.value v, h.set c { ch with buf := rest })
    | [] => if ch.closed then some (RecvResult.closed, h) else none

/-- The struct `broadcaster`: the map `listeners` and the channel objects its values
refer to. -/
structure broadcaster where
  listeners : Finmap (fun _ : Int => ChanRef)
  chans : Heap
deriving DecidableEq

/-- `NewBroadcaster()`: an empty `listeners` map. -/
def NewBroadcaster : broadcaster := { listeners := ∅, chans := [] }

/-- The loop of `Register` that looks for an unused id.  `rand` holds the values the
successive calls of `rand.Int()` return; the result is the id found and the draws not
consumed.  `none`: every given draw was taken, the loop is still running. -/
def findId (listeners : Finmap (fun _ : Int => ChanRef)) : List Int → Option (Int × List Int)
  | [] => none
  | id :: rest =>
    match listeners.lookup id with
    | none => some (id, rest)
    | some _ => findId listeners rest

/-- What `Register` hands back, with the state after the call and the draws left. -/
structure Registered where
  id : Int
  c : ChanRef
  b : broadcaster
  rest : List Int
deriving DecidableEq

/-- `func (b *broadcaster) Register() (int, chan int)`. -/
def broadcaster.Register (b : broadcaster) (rand : List Int) : Option Registered :=
  let c := b.chans.length
  let chans := b.chans ++ [makeChan 1]
  match findId b.listeners rand with
  | none => none
  | some (id, rest) =>
    some { id := id, c := c, b := { listeners := b.listeners.insert id c, chans := chans },
           rest := rest }

/-- `func (b *broadcaster) Unregister(id int)`. -/
def broadcaster.Unregister (b : broadcaster) (id : Int) : Option broadcaster :=
  match b.listeners.lookup id with
  | some ch =>
    match closeChan b.chans ch with
    | none => none
    | some chans => some { listeners := b.listeners.erase id, chans := chans }
  | none => some b

/-- One iteration of the `range` loop of `Broadcast`, on the channel store. -/
def sendTo (acc : Option Heap) (_id : Int) (c : ChanRef) : Option Heap :=
  acc.bind fun h => trySend h c 1

/-! ## `Broadcast`

The `range` loop visits the map in an order Go does not fix; the fold below is
well defined because two non-blocking sends commute. -/

/-- What a non-blocking send of `v` makes of a channel that is open. -/
def offer (ch : Chan) (v : Int) : Chan :=
  if ch.buf.length < ch.cap then { ch with buf := ch.buf ++ [v] } else ch

theorem set_same {α : Type} (l : List α) (i : Nat) (a : α) (h : l[i]? = some a) :
    l.set i a = l := by
  apply List.ext_getElem?
  intro j
  rw [List.getElem?_set]
  split_ifs with h1 h2
  · subst h1; exact h.symm
  · subst h1
    rw [List.getElem?_eq_none (by omega)] at h
    cases h
  · rfl

theorem trySend_eq (h : Heap) (c : ChanRef) (v : Int) :
    trySend h c v =
      match h[c]? with
      | none => none
      | some ch => if ch.closed then none else some (h.set c (offer ch v)) := by
  unfold trySend offer
  rcases hc : h[c]? with _ | ch
  · rfl
  · dsimp only
    split_ifs with h1 h2
    · rfl
    · rfl
    · rw [set_same h c ch hc]

theorem trySend_comm (h : Heap) (c₁ c₂ : ChanRef) (v : Int) :
    (trySend h c₁ v).bind (fun h => trySend h c₂ v)
      = (trySend h c₂ v).bind (fun h => trySend h c₁ v) := by
  by_cases hc : c₁ = c₂
  · subst hc; rfl
  · have hc' : c₂ ≠ c₁ := fun e => hc e.symm
    simp only [trySend_eq]
    rcases h₁ : h[c₁]? with _ | ch₁ <;> rcases h₂ : h[c₂]? with _ | ch₂ <;> dsimp only
    · rfl
    · by_cases k : ch₂.closed = true <;> simp [k, List.getElem?_set_ne hc', h₁]
    · by_cases k : ch₁.closed = true <;> simp [k, List.getElem?_set_ne hc, h₂]
    · by_cases k₁ : ch₁.closed = true <;> by_cases k₂ : ch₂.closed = true <;>
        simp [k₁, k₂, List.getElem?_set_ne hc, List.getElem?_set_ne hc', h₁, h₂]
      exact List.set_comm _ _ _ hc

/-- The order in which `range` visits the map does not matter. -/
theorem sendTo_comm (d : Option Heap) (a₁ : Int) (b₁ : ChanRef) (a₂ : Int) (b₂ : ChanRef) :
    sendTo (sendTo d a₁ b₁) a₂ b₂ = sendTo (sendTo d a₂ b₂) a₁ b₁ := by
  cases d with
  | none => rfl
  | some h => exact trySend_comm h b₁ b₂ 1

/-- `func (b *broadcaster) Broadcast()`: the `range` loop is a fold over the map in an
order that is not specified. -/
def broadcaster.Broadcast (b : broadcaster) : Option broadcaster :=
  (b.listeners.foldl sendTo sendTo_comm (some b.chans)).map fun chans =>
    { b with chans := chans }

/-- A call on the broadcaster, or a receive by a consumer on a channel it holds. -/
inductive Op where
  | register (rand : List Int)
  | unregister (id : Int)
  | broadcast
  | receive (c : ChanRef)
deriving DecidableEq, Repr

/-- A broadcaster in use, with the record of its calls: `issued` lists every pair
`Register` has returned, oldest first, and `live` those of them whose id has not been
passed to `Unregister` since. -/
structure Sys where
  b : broadcaster
  issued : List (Int × ChanRef)
  live : List (Int × ChanRef)
deriving DecidableEq

/-- The system right after `NewBroadcaster()`. -/
def Sys.init : Sys := { b := NewBroadcaster, issued := [], live := [] }

/-- One step of the system.  `none`: the call panics or does not return, or the
receive blocks. -/
def Sys.exec (s : Sys) : Op → Option Sys
  | Op.register rand =>
    (s.b.Register rand).map fun r =>
      { b := r.b, issued := s.issued ++ [(r.id, r.c)], live := s.live ++ [(r.id, r.c)] }
  | Op.unregister id =>
    (s.b.Unregister id).map fun b =>
      { b := b, issued := s.issued, live := s.live.filter fun p => p.1 ≠ id }
  | Op.broadcast =>
    s.b.Broadcast.map fun b => { s with b := b }
  | Op.receive c =>
    (recv s.b.chans c).map fun r => { s with b := { s.b with chans := r.2 } }

/-- A sequence of steps. -/
def Sys.run (s : Sys) : List Op → Option Sys
  | [] => some s
  | op :: ops => (s.exec op).bind fun s' => s'.run ops

/-- Whether an operation is a method call, not a consumer's receive. -/
def Op.isCall : Op → Bool
  | Op.receive _ => false
  | _ => true

/-- The invariant of the system: a registered channel exists and is open, no channel
is registered under two ids, every channel has capacity one and holds nothing or the
single value 1, an open channel is registered, `live` lists the entries of the map,
and the k-th pair that `Register` returned carries the k-th channel. -/
structure Inv (s : Sys) : Prop where
  openReg : ∀ id c, s.b.listeners.lookup id = some c →
    ∃ ch, s.b.chans[c]? = some ch ∧ ch.closed = false
  inj : ∀ id₁ id₂ c, s.b.listeners.lookup id₁ = some c →
    s.b.listeners.lookup id₂ = some c → id₁ = id₂
  slot : ∀ (c : ChanRef) (ch : Chan), s.b.chans[c]? = some ch → ch.cap = 1 ∧ (ch.buf = [] ∨ ch.buf = [1])
  regOpen : ∀ (c : ChanRef) (ch : Chan), s.b.chans[c]? = some ch → ch.closed = false →
    ∃ id, s.b.listeners.lookup id = some c
  liveIff : ∀ id c, (id, c) ∈ s.live ↔ s.b.listeners.lookup id = some c
  liveNodup : (s.live.map Prod.fst).Nodup
  issuedSlots : s.issued.map Prod.snd = List.range s.b.chans.length
  liveIssued : ∀ p ∈ s.live, p ∈ s.issued

end persistentvolume

/-! # The example extender of `examples/noop-extender/noop-extender.go`

The methods `Filter` and `Prioritize` of `Extender`.  The types of package
`schedulerapi` they use are declared in another package; they are given here with the
fields the two methods touch.  A Go pointer that may be `nil` is an `Option`,
the Go `error` result is an `Option String` with `none` for `nil`, and a panic is the
result `none`.
-/

namespace extender

/-- Modelled from the spec: the declaration of `schedulerapi.FailedNodesMap` is not in
the sources; `Filter` builds it with the empty composite literal and the spec calls
the answer trivial and pass-through, so it is a finite map from node name to a
message. -/
abbrev FailedNodesMap := Finmap (fun _ : String => String)

/-- Modelled from the spec: the declaration of `schedulerapi.ExtenderArgs` is not in
the sources; these are the fields of the request, of which the two methods read
`NodeNames`, a pointer to a slice of node names.  `Pod` and `NodeList` stand for
`v1.Pod` and `v1.NodeList`. -/
structure ExtenderArgs (Pod NodeList : Type) where
  Pod : Pod
  Nodes : Option NodeList
  NodeNames : Option (List String)

/-- Modelled from the spec: the declaration of `schedulerapi.ExtenderFilterResult` is
not in the sources; these are the fields `Filter` sets, and `Error`, which `serveHTTP`
sets. -/
structure ExtenderFilterResult (NodeList : Type) where
  Nodes : Option NodeList
  NodeNames : Option (List String)
  FailedNodes : FailedNodesMap
  Error : String

/-- Modelled from the spec: the declaration of `schedulerapi.HostPriority` is not in
the sources; these are the two fields `Prioritize` sets. -/
structure HostPriority where
  Host : String
  Score : Int
deriving DecidableEq, Repr

/-- Modelled from the spec: `schedulerapi.HostPriorityList`, which `Prioritize` builds
with `append`, is a slice of `HostPriority`. -/
abbrev HostPriorityList := List HostPriority

/-- `func (e *Extender) Filter(args *schedulerapi.ExtenderArgs)
(*schedulerapi.ExtenderFilterResult, error)`, on the struct `args` points to. -/
def Extender.Filter {Pod NodeList : Type} (args : ExtenderArgs Pod NodeList) :
    ExtenderFilterResult NodeList × Option String :=
  let failedNodesMap : FailedNodesMap := ∅
  ({ Nodes := none, NodeNames := args.NodeNames, FailedNodes := failedNodesMap, Error := "" },
    none)

/-- `func (e *Extender) Prioritize(args *schedulerapi.ExtenderArgs)
(*schedulerapi.HostPriorityList, error)`, on the struct `args` points to.  The loop
dereferences `args.NodeNames`, which panics on `nil`. -/
def Extender.Prioritize {Pod NodeList : Type} (args : ExtenderArgs Pod NodeList) :
    Option (HostPriorityList × Option String) :=
  match args.NodeNames with
  | none => none
  | some names =>
    let result : HostPriorityList :=
      names.foldl (fun result node => result ++ [{ Host := node, Score := 1 }]) []
    some (result, none)

end extender

namespace persistentvolume

/-! ## Lemmas on the operations -/

theorem getElem?_lt {α : Type} {l : List α} {i : Nat} {a : α} (h : l[i]? = some a) :
    i < l.length := by
  by_contra hge
  rw [List.getElem?_eq_none (by omega)] at h
  cases h

/-- The `range` loop of `Broadcast` along a list of map entries whose channels are
distinct, allocated and open: it completes, every listed channel is offered the
value once, and the other channels are left alone. -/
theorem foldl_sendTo_spec (l : List (Sigma fun _ : Int => ChanRef))
    (hnd : (l.map Sigma.snd).Nodup) :
    ∀ h : Heap, (∀ e ∈ l, ∃ ch, h[e.2]? = some ch ∧ ch.closed = false) →
      ∃ h', l.foldl (fun d e => sendTo d e.1 e.2) (some h) = some h' ∧
        (∀ e ∈ l, h'[e.2]? = (h[e.2]?).map fun ch => offer ch 1) ∧
        (∀ c, (∀ e ∈ l, e.2 ≠ c) → h'[c]? = h[c]?) := by
  induction l with
  | nil =>
    intro h _
    exact ⟨h, rfl, by simp, fun _ _ => rfl⟩
  | cons e t ih =>
    intro h hopen
    rw [List.map_cons, List.nodup_cons] at hnd
    obtain ⟨ch, hch, hcl⟩ := hopen e (List.mem_cons_self _ _)
    have hne : ∀ e' ∈ t, e'.2 ≠ e.2 := fun e' he' heq =>
      hnd.1 (heq ▸ List.mem_map_of_mem Sigma.snd he')
    have hstep : sendTo (some h) e.1 e.2 = some (h.set e.2 (offer ch 1)) := by
      show trySend h e.2 1 = _
      rw [trySend_eq, hch]
      simp [hcl]
    obtain ⟨h', hrun, hin, hout⟩ := ih hnd.2 (h.set e.2 (offer ch 1)) (by
      intro e' he'
      obtain ⟨ch', hch', hcl'⟩ := hopen e' (List.mem_cons_of_mem _ he')
      exact ⟨ch', by rw [List.getElem?_set_ne (hne e' he').symm]; exact hch', hcl'⟩)
    refine ⟨h', ?_, ?_, ?_⟩
    · rw [List.foldl_cons, hstep]; exact hrun
    · intro e' he'
      rcases List.mem_cons.1 he' with rfl | he'
      · rw [hout _ (fun e'' he'' => hne e'' he''), hch,
          List.getElem?_set_self (getElem?_lt hch)]
        rfl
      · rw [hin e' he', List.getElem?_set_ne (hne e' he').symm]
    · intro c hc
      rw [hout c (fun e' he' => hc e' (List.mem_cons_of_mem _ he')),
        List.getElem?_set_ne (hc e (List.mem_cons_self _ _))]

/-- `Broadcast` on a broadcaster whose registered channels are allocated, open and
pairwise distinct: it returns, the map is the same, every registered channel was
offered the value 1 once, and no other channel changed. -/
theorem Broadcast_spec (b : broadcaster)
    (hopen : ∀ id c, b.listeners.lookup id = some c →
      ∃ ch, b.chans[c]? = some ch ∧ ch.closed = false)
    (hinj : ∀ id₁ id₂ c, b.listeners.lookup id₁ = some c →
      b.listeners.lookup id₂ = some c → id₁ = id₂) :
    ∃ b', b.Broadcast = some b' ∧ b'.listeners = b.listeners ∧
      (∀ id c, b.listeners.lookup id = some c →
        b'.chans[c]? = (b.chans[c]?).map fun ch => offer ch 1) ∧
      (∀ c, (∀ id, b.listeners.lookup id ≠ some c) → b'.chans[c]? = b.chans[c]?) := by
  obtain ⟨m, chans⟩ := b
  induction m using Finmap.induction_on with
  | H a =>
    have hmem : ∀ (id : Int) (c : ChanRef),
        (Sigma.mk id c : Sigma fun _ : Int => ChanRef) ∈ a.entries ↔
          Finmap.lookup id (AList.toFinmap a) = some c := by
      intro id c
      rw [Finmap.lookup_toFinmap, ← AList.mem_lookup_iff]
      rfl
    have hnd : (a.entries.map Sigma.snd).Nodup := by
      refine List.Nodup.map_on ?_ a.nodupKeys.nodup
      rintro ⟨i₁, c₁⟩ h₁ ⟨i₂, c₂⟩ h₂ (heq : c₁ = c₂)
      subst heq
      have := hinj i₁ i₂ c₁ ((hmem _ _).1 h₁) ((hmem _ _).1 h₂)
      subst this
      rfl
    obtain ⟨h', hrun, hin, hout⟩ := foldl_sendTo_spec a.entries hnd chans (by
      rintro ⟨i, c⟩ he
      exact hopen i c ((hmem _ _).1 he))
    refine ⟨⟨AList.toFinmap a, h'⟩, ?_, rfl, ?_, ?_⟩
    · show Option.map _ (List.foldl _ _ a.entries) = _
      rw [hrun]; rfl
    · intro id c hl
      exact hin ⟨id, c⟩ ((hmem _ _).2 hl)
    · intro c hc
      refine hout c ?_
      rintro ⟨i, c'⟩ he (heq : c' = c)
      subst heq
      exact hc i ((hmem _ _).1 he)


/-- What the id loop of `Register` returns is not a key of the map, and the draws it
consumed before it were all keys. -/
theorem findId_some (l : Finmap fun _ : Int => ChanRef) :
    ∀ (rand : List Int) (id : Int) (rest : List Int), findId l rand = some (id, rest) →
      l.lookup id = none ∧ ∃ pre, rand = pre ++ id :: rest ∧ ∀ d ∈ pre, d ∈ l := by
  intro rand
  induction rand with
  | nil => intro id rest h; cases h
  | cons d ds ih =>
    intro id rest h
    unfold findId at h
    rcases hd : l.lookup d with _ | c
    · rw [hd] at h
      simp only [Option.some.injEq, Prod.mk.injEq] at h
      obtain ⟨rfl, rfl⟩ := h
      exact ⟨hd, [], rfl, by simp⟩
    · rw [hd] at h
      obtain ⟨hn, pre, hpre, hall⟩ := ih id rest h
      refine ⟨hn, d :: pre, by rw [hpre]; rfl, ?_⟩
      intro x hx
      rcases List.mem_cons.1 hx with rfl | hx
      · exact Finmap.mem_of_lookup_eq_some hd
      · exact hall x hx

/-- The effect of a `Register` that returns. -/
theorem Register_some {b : broadcaster} {rand : List Int} {r : Registered}
    (h : b.Register rand = some r) :
    b.listeners.lookup r.id = none ∧ r.c = b.chans.length ∧
      r.b.listeners = b.listeners.insert r.id r.c ∧ r.b.chans = b.chans ++ [makeChan 1] ∧
      findId b.listeners rand = some (r.id, r.rest) := by
  unfold broadcaster.Register at h
  rcases hf : findId b.listeners rand with _ | ⟨id, rest⟩
  · rw [hf] at h; cases h
  · rw [hf] at h
    simp only [Option.some.injEq] at h
    subst h
    exact ⟨(findId_some _ _ _ _ hf).1, rfl, rfl, rfl, rfl⟩

/-- `Unregister` of an id that is not registered returns and changes nothing. -/
theorem Unregister_absent {b : broadcaster} {id : Int} (h : b.listeners.lookup id = none) :
    b.Unregister id = some b := by
  unfold broadcaster.Unregister
  rw [h]

/-- `Unregister` of an id whose channel is allocated and open. -/
theorem Unregister_present {b : broadcaster} {id : Int} {c : ChanRef} {ch : Chan}
    (h : b.listeners.lookup id = some c) (hc : b.chans[c]? = some ch)
    (ho : ch.closed = false) :
    b.Unregister id = some { listeners := b.listeners.erase id,
                             chans := b.chans.set c { ch with closed := true } } := by
  unfold broadcaster.Unregister closeChan
  rw [h]
  simp [hc, ho]

theorem Inv_init : Inv Sys.init where
  openReg := by intro id c h; simp [Sys.init, NewBroadcaster] at h
  inj := by intro id₁ id₂ c h; simp [Sys.init, NewBroadcaster] at h
  slot := by intro c ch h; simp [Sys.init, NewBroadcaster] at h
  regOpen := by intro c ch h; simp [Sys.init, NewBroadcaster] at h
  liveIff := by intro id c; simp [Sys.init, NewBroadcaster]
  liveNodup := by simp [Sys.init]
  issuedSlots := by simp [Sys.init, NewBroadcaster]
  liveIssued := by intro p h; simp [Sys.init] at h

theorem offer_one {ch : Chan} (h : ch.cap = 1 ∧ (ch.buf = [] ∨ ch.buf = [1])) :
    offer ch 1 = { ch with buf := [1] } := by
  obtain ⟨hc, hb | hb⟩ := h
  · unfold offer; simp [hc, hb]
  · unfold offer
    rw [if_neg (by simp [hc, hb])]
    cases ch
    simp_all


theorem erase_absent {m : Finmap fun _ : Int => ChanRef} {id : Int}
    (h : m.lookup id = none) : m.erase id = m := by
  apply Finmap.ext_lookup
  intro x
  by_cases hx : x = id
  · subst hx; rw [Finmap.lookup_erase, h]
  · rw [Finmap.lookup_erase_ne hx]

theorem lookup_insert_iff {m : Finmap fun _ : Int => ChanRef} {id k : Int} {c v : ChanRef} :
    (m.insert id c).lookup k = some v ↔ (k = id ∧ v = c) ∨ (k ≠ id ∧ m.lookup k = some v) := by
  by_cases hk : k = id
  · subst hk
    rw [Finmap.lookup_insert]
    constructor
    · intro h; exact Or.inl ⟨rfl, (Option.some.inj h).symm⟩
    · rintro (⟨-, rfl⟩ | ⟨h, -⟩)
      · rfl
      · exact absurd rfl h
  · rw [Finmap.lookup_insert_of_ne _ hk]
    constructor
    · intro h; exact Or.inr ⟨hk, h⟩
    · rintro (⟨h, -⟩ | ⟨-, h⟩)
      · exact absurd h hk
      · exact h

theorem lookup_erase_iff {m : Finmap fun _ : Int => ChanRef} {id k : Int} {v : ChanRef} :
    (m.erase id).lookup k = some v ↔ k ≠ id ∧ m.lookup k = some v := by
  by_cases hk : k = id
  · subst hk
    rw [Finmap.lookup_erase]
    constructor
    · intro h; cases h
    · rintro ⟨h, -⟩; exact absurd rfl h
  · rw [Finmap.lookup_erase_ne hk]
    exact ⟨fun h => ⟨hk, h⟩, fun h => h.2⟩

theorem getElem?_snoc {α : Type} (l : List α) (a : α) (i : Nat) :
    (l ++ [a])[i]? = if i < l.length then l[i]? else if i = l.length then some a else none := by
  split_ifs with h1 h2
  · exact List.getElem?_append_left h1
  · subst h2; exact List.getElem?_concat_length l a
  · exact List.getElem?_eq_none (by simp; omega)

/-- `Register` keeps the invariant. -/
theorem Inv_register {s : Sys} (hs : Inv s) {rand : List Int} {r : Registered}
    (h : s.b.Register rand = some r) :
    Inv { b := r.b, issued := s.issued ++ [(r.id, r.c)], live := s.live ++ [(r.id, r.c)] } := by
  obtain ⟨hnone, hc, hl, hch, -⟩ := Register_some h
  have hfresh : ∀ k, s.b.listeners.lookup k ≠ some s.b.chans.length := by
    intro k hk
    obtain ⟨ch, hch', -⟩ := hs.openReg k _ hk
    exact absurd (getElem?_lt hch') (lt_irrefl _)
  constructor
  · intro k v hk
    dsimp only at hk ⊢
    rw [hl, lookup_insert_iff] at hk
    rw [hch, getElem?_snoc]
    rcases hk with ⟨-, rfl⟩ | ⟨-, hk⟩
    · rw [hc]; simp [makeChan]
    · obtain ⟨ch, hch', ho⟩ := hs.openReg k v hk
      rw [if_pos (getElem?_lt hch')]
      exact ⟨ch, hch', ho⟩
  · intro k₁ k₂ v h₁ h₂
    dsimp only at h₁ h₂
    rw [hl, lookup_insert_iff] at h₁ h₂
    rcases h₁ with ⟨e₁, rfl⟩ | ⟨-, h₁⟩ <;> rcases h₂ with ⟨e₂, e⟩ | ⟨-, h₂⟩
    · rw [e₁, e₂]
    · rw [hc] at h₂; exact absurd h₂ (hfresh _)
    · rw [e, hc] at h₁; exact absurd h₁ (hfresh _)
    · exact hs.inj k₁ k₂ v h₁ h₂
  · intro v ch hv
    dsimp only at hv
    rw [hch, getElem?_snoc] at hv
    split_ifs at hv with h1 h2
    · exact hs.slot v ch hv
    · cases hv; simp [makeChan]
  · intro v ch hv ho
    dsimp only at hv ⊢
    rw [hch, getElem?_snoc] at hv
    split_ifs at hv with h1 h2
    · obtain ⟨k, hk⟩ := hs.regOpen v ch hv ho
      refine ⟨k, ?_⟩
      rw [hl, lookup_insert_iff]
      refine Or.inr ⟨?_, hk⟩
      rintro rfl
      rw [hnone] at hk; cases hk
    · refine ⟨r.id, ?_⟩
      rw [hl, Finmap.lookup_insert, hc, h2]
  · intro k v
    dsimp only
    rw [hl, lookup_insert_iff, List.mem_append, List.mem_singleton, Prod.mk.injEq, hs.liveIff]
    constructor
    · rintro (hk | ⟨rfl, rfl⟩)
      · refine Or.inr ⟨?_, hk⟩
        rintro rfl
        rw [hnone] at hk; cases hk
      · exact Or.inl ⟨rfl, rfl⟩
    · rintro (⟨rfl, rfl⟩ | ⟨-, hk⟩)
      · exact Or.inr ⟨rfl, rfl⟩
      · exact Or.inl hk
  · dsimp only
    rw [List.map_append, List.map_singleton, List.nodup_append]
    refine ⟨hs.liveNodup, List.nodup_singleton _, ?_⟩
    intro k hk hk'
    rw [List.mem_singleton] at hk'
    subst hk'
    obtain ⟨⟨k', v⟩, hp, rfl⟩ := List.mem_map.1 hk
    have := (hs.liveIff _ _).1 hp
    rw [hnone] at this; cases this
  · dsimp only
    rw [List.map_append, List.map_singleton, hs.issuedSlots, hch, List.length_append,
      List.length_singleton, List.range_succ, hc]
  · intro p hp
    dsimp only at hp ⊢
    rw [List.mem_append] at hp ⊢
    exact hp.imp (hs.liveIssued p) id


theorem length_eq_of_getElem? {α : Type} {l l' : List α}
    (h : ∀ i : Nat, l'[i]? = none ↔ l[i]? = none) : l'.length = l.length := by
  have h1 := (h l.length).2 (List.getElem?_eq_none (le_refl _))
  have h2 := (h l'.length).1 (List.getElem?_eq_none (le_refl _))
  rw [List.getElem?_eq_none_iff] at h1 h2
  omega

theorem offer_closed (ch : Chan) (v : Int) : (offer ch v).closed = ch.closed := by
  unfold offer; split_ifs <;> rfl

theorem offer_cap (ch : Chan) (v : Int) : (offer ch v).cap = ch.cap := by
  unfold offer; split_ifs <;> rfl

/-- `Unregister` keeps the invariant. -/
theorem Inv_unregister {s : Sys} (hs : Inv s) {id : Int} {b' : broadcaster}
    (h : s.b.Unregister id = some b') :
    Inv { b := b', issued := s.issued, live := s.live.filter fun p => p.1 ≠ id } := by
  rcases hl : s.b.listeners.lookup id with _ | c
  · rw [Unregister_absent hl] at h
    cases h
    have hf : (s.live.filter fun p => p.1 ≠ id) = s.live := by
      rw [List.filter_eq_self]
      rintro ⟨k, v⟩ hp
      have := (hs.liveIff k v).1 hp
      simp only [ne_eq, decide_not, Bool.not_eq_eq_eq_not, Bool.not_true, decide_eq_false_iff_not]
      rintro rfl
      rw [hl] at this; cases this
    rw [hf]
    exact ⟨hs.openReg, hs.inj, hs.slot, hs.regOpen, hs.liveIff, hs.liveNodup, hs.issuedSlots,
      hs.liveIssued⟩
  · obtain ⟨ch, hch, ho⟩ := hs.openReg id c hl
    rw [Unregister_present hl hch ho] at h
    cases h
    have hlt := getElem?_lt hch
    constructor
    · intro k v hk
      dsimp only at hk ⊢
      rw [lookup_erase_iff] at hk
      have hne : c ≠ v := fun e => hk.1 (hs.inj k id v hk.2 (e ▸ hl))
      rw [List.getElem?_set_ne hne]
      exact hs.openReg k v hk.2
    · intro k₁ k₂ v h₁ h₂
      dsimp only at h₁ h₂
      rw [lookup_erase_iff] at h₁ h₂
      exact hs.inj k₁ k₂ v h₁.2 h₂.2
    · intro v ch' hv
      dsimp only at hv
      rw [List.getElem?_set] at hv
      split_ifs at hv with h1
      · cases hv; exact hs.slot c ch hch
      · exact hs.slot v ch' hv
    · intro v ch' hv ho'
      dsimp only at hv ⊢
      rw [List.getElem?_set] at hv
      split_ifs at hv with h1
      · cases hv; cases ho'
      · obtain ⟨k, hk⟩ := hs.regOpen v ch' hv ho'
        refine ⟨k, lookup_erase_iff.2 ⟨?_, hk⟩⟩
        rintro rfl
        rw [hl] at hk
        exact h1 (Option.some.inj hk)
    · intro k v
      dsimp only
      rw [List.mem_filter, hs.liveIff, lookup_erase_iff]
      simp [and_comm]
    · exact hs.liveNodup.sublist ((List.filter_sublist _).map _)
    · dsimp only
      rw [List.length_set]
      exact hs.issuedSlots
    · intro p hp
      exact hs.liveIssued p (List.mem_filter.1 hp).1

/-- `Broadcast` on a system that satisfies the invariant returns, and what it does to
each channel. -/
theorem Broadcast_Inv {s : Sys} (hs : Inv s) :
    ∃ b', s.b.Broadcast = some b' ∧ b'.listeners = s.b.listeners ∧
      b'.chans.length = s.b.chans.length ∧
      (∀ id c, s.b.listeners.lookup id = some c →
        ∃ ch, s.b.chans[c]? = some ch ∧ ch.closed = false ∧
          b'.chans[c]? = some { ch with buf := [1] }) ∧
      (∀ c, (∀ id, s.b.listeners.lookup id ≠ some c) → b'.chans[c]? = s.b.chans[c]?) := by
  obtain ⟨b', hb, hl, hin, hout⟩ := Broadcast_spec s.b hs.openReg hs.inj
  refine ⟨b', hb, hl, ?_, ?_, hout⟩
  · apply length_eq_of_getElem?
    intro c
    by_cases hreg : ∃ id, s.b.listeners.lookup id = some c
    · obtain ⟨id, hid⟩ := hreg
      rw [hin id c hid, Option.map_eq_none']
    · rw [hout c (fun id hid => hreg ⟨id, hid⟩)]
  · intro id c hid
    obtain ⟨ch, hch, ho⟩ := hs.openReg id c hid
    refine ⟨ch, hch, ho, ?_⟩
    rw [hin id c hid, hch, Option.map_some', offer_one (hs.slot c ch hch)]

/-- `Broadcast` keeps the invariant. -/
theorem Inv_broadcast {s : Sys} (hs : Inv s) {b' : broadcaster}
    (h : s.b.Broadcast = some b') : Inv { s with b := b' } := by
  obtain ⟨b'', hb, hl, hlen, hin, hout⟩ := Broadcast_Inv hs
  rw [h] at hb
  cases hb
  constructor
  · intro k v hk
    dsimp only at hk ⊢
    rw [hl] at hk
    obtain ⟨ch, -, ho, hch'⟩ := hin k v hk
    exact ⟨_, hch', ho⟩
  · intro k₁ k₂ v h₁ h₂
    dsimp only at h₁ h₂
    rw [hl] at h₁ h₂
    exact hs.inj k₁ k₂ v h₁ h₂
  · intro v ch' hv
    dsimp only at hv
    by_cases hreg : ∃ id, s.b.listeners.lookup id = some v
    · obtain ⟨id, hid⟩ := hreg
      obtain ⟨ch, hch, -, hch'⟩ := hin id v hid
      rw [hch'] at hv
      cases hv
      exact ⟨(hs.slot v ch hch).1, Or.inr rfl⟩
    · rw [hout v (fun id hid => hreg ⟨id, hid⟩)] at hv
      exact hs.slot v ch' hv
  · intro v ch' hv ho
    dsimp only at hv ⊢
    rw [hl]
    by_cases hreg : ∃ id, s.b.listeners.lookup id = some v
    · exact hreg
    · rw [hout v (fun id hid => hreg ⟨id, hid⟩)] at hv
      exact hs.regOpen v ch' hv ho
  · intro k v
    dsimp only
    rw [hl]
    exact hs.liveIff k v
  · exact hs.liveNodup
  · dsimp only
    rw [hlen]
    exact hs.issuedSlots
  · exact hs.liveIssued


/-- A receive that does not block takes the oldest buffered value of its channel, if
there is one, and changes nothing else. -/
theorem recv_getElem? {h h' : Heap} {c : ChanRef} {res : RecvResult}
    (hr : recv h c = some (res, h')) (c' : ChanRef) :
    h'[c']? = (h[c']?).map fun ch => if c' = c then { ch with buf := ch.buf.tail } else ch := by
  unfold recv at hr
  rcases hc : h[c]? with _ | ch
  · rw [hc] at hr; cases hr
  · rw [hc] at hr
    dsimp only at hr
    rcases hb : ch.buf with _ | ⟨v, rest⟩
    · rw [hb] at hr
      dsimp only at hr
      split_ifs at hr with hcl
      cases hr
      by_cases hcc : c' = c
      · subst hcc
        rw [hc, Option.map_some', if_pos rfl, hb]
        cases ch
        simp_all
      · rcases h[c']? with _ | ch' <;> simp [hcc]
    · rw [hb] at hr
      cases hr
      rw [List.getElem?_set]
      by_cases hcc : c' = c
      · subst hcc
        rw [if_pos rfl, if_pos (getElem?_lt hc), hc]
        simp [hb]
      · rw [if_neg (fun e => hcc e.symm)]
        rcases h[c']? with _ | ch' <;> simp [hcc]

/-- A consumer's receive keeps the invariant. -/
theorem Inv_receive {s : Sys} (hs : Inv s) {c : ChanRef} {r : RecvResult × Heap}
    (h : recv s.b.chans c = some r) : Inv { s with b := { s.b with chans := r.2 } } := by
  obtain ⟨res, h'⟩ := r
  have hg := recv_getElem? h
  have hlen : h'.length = s.b.chans.length := by
    apply length_eq_of_getElem?
    intro i
    rw [hg i, Option.map_eq_none']
  constructor
  · intro k v hk
    dsimp only at hk ⊢
    obtain ⟨ch, hch, ho⟩ := hs.openReg k v hk
    rw [hg v, hch]
    refine ⟨_, rfl, ?_⟩
    split_ifs <;> exact ho
  · exact hs.inj
  · intro v ch' hv
    dsimp only at hv
    rw [hg v] at hv
    rcases hch : s.b.chans[v]? with _ | ch
    · rw [hch] at hv; cases hv
    · rw [hch] at hv
      obtain ⟨hcap, hbuf⟩ := hs.slot v ch hch
      simp only [Option.map_some', Option.some.injEq] at hv
      subst hv
      split_ifs
      · refine ⟨hcap, Or.inl ?_⟩
        rcases hbuf with hb | hb <;> simp [hb]
      · exact ⟨hcap, hbuf⟩
  · intro v ch' hv ho
    dsimp only at hv ⊢
    rw [hg v] at hv
    rcases hch : s.b.chans[v]? with _ | ch
    · rw [hch] at hv; cases hv
    · rw [hch] at hv
      simp only [Option.map_some', Option.some.injEq] at hv
      subst hv
      refine hs.regOpen v ch hch ?_
      split_ifs at ho <;> exact ho
  · exact hs.liveIff
  · exact hs.liveNodup
  · dsimp only
    rw [hlen]
    exact hs.issuedSlots
  · exact hs.liveIssued

/-- Every step keeps the invariant. -/
theorem Inv_exec {s s' : Sys} (hs : Inv s) {op : Op} (h : s.exec op = some s') : Inv s' := by
  cases op with
  | register rand =>
    obtain ⟨r, hr, rfl⟩ := Option.map_eq_some'.1 h
    exact Inv_register hs hr
  | unregister id =>
    obtain ⟨b', hb, rfl⟩ := Option.map_eq_some'.1 h
    exact Inv_unregister hs hb
  | broadcast =>
    obtain ⟨b', hb, rfl⟩ := Option.map_eq_some'.1 h
    exact Inv_broadcast hs hb
  | receive c =>
    obtain ⟨r, hr, rfl⟩ := Option.map_eq_some'.1 h
    exact Inv_receive hs hr

/-- Every sequence of steps keeps the invariant. -/
theorem Inv_run {ops : List Op} : ∀ {s s' : Sys}, Inv s → s.run ops = some s' → Inv s' := by
  induction ops with
  | nil =>
    intro s s' hs h
    cases h
    exact hs
  | cons op ops ih =>
    intro s s' hs h
    obtain ⟨s₁, h₁, h₂⟩ := Option.bind_eq_some.1 h
    exact ih (Inv_exec hs h₁) h₂

/-- The invariant holds in every state the system reaches from `NewBroadcaster()`. -/
theorem Inv_reachable {ops : List Op} {s : Sys} (h : Sys.init.run ops = some s) : Inv s :=
  Inv_run Inv_init h


theorem keys_insert_absent {m : Finmap fun _ : Int => ChanRef} {id : Int} {c : ChanRef}
    (h : id ∉ m) : (m.insert id c).keys.card = m.keys.card + 1 := by
  have hk : (m.insert id c).keys = insert id m.keys := by
    ext x
    rw [Finmap.mem_keys, Finmap.mem_insert, Finset.mem_insert, Finmap.mem_keys]
  rw [hk, Finset.card_insert_of_not_mem (fun hm => h (Finmap.mem_keys.1 hm))]

/-- What a step does to the open or closed status of a channel that exists: the
channel stays, and its status changes only from open to closed, by an `Unregister` of
the id it is registered under. -/
theorem exec_closed {s s' : Sys} (hs : Inv s) {op : Op} (h : s.exec op = some s')
    {c : ChanRef} {ch : Chan} (hc : s.b.chans[c]? = some ch) :
    ∃ ch', s'.b.chans[c]? = some ch' ∧
      (ch'.closed = ch.closed ∨
        (ch.closed = false ∧ ch'.closed = true ∧
          ∃ id, op = Op.unregister id ∧ s.b.listeners.lookup id = some c)) := by
  cases op with
  | register rand =>
    obtain ⟨r, hr, rfl⟩ := Option.map_eq_some'.1 h
    refine ⟨ch, ?_, Or.inl rfl⟩
    dsimp only
    rw [(Register_some hr).2.2.2.1, List.getElem?_append_left (getElem?_lt hc)]
    exact hc
  | unregister id =>
    obtain ⟨b', hb, rfl⟩ := Option.map_eq_some'.1 h
    dsimp only
    rcases hl : s.b.listeners.lookup id with _ | c₀
    · rw [Unregister_absent hl] at hb
      cases hb
      exact ⟨ch, hc, Or.inl rfl⟩
    · obtain ⟨ch₀, hch₀, ho⟩ := hs.openReg id c₀ hl
      rw [Unregister_present hl hch₀ ho] at hb
      cases hb
      dsimp only
      by_cases hcc : c₀ = c
      · subst hcc
        rw [hc] at hch₀
        cases hch₀
        exact ⟨_, List.getElem?_set_self (getElem?_lt hc), Or.inr ⟨ho, rfl, id, rfl, hl⟩⟩
      · rw [List.getElem?_set_ne hcc]
        exact ⟨ch, hc, Or.inl rfl⟩
  | broadcast =>
    obtain ⟨b', hb, rfl⟩ := Option.map_eq_some'.1 h
    obtain ⟨b'', hb', -, -, hin, hout⟩ := Broadcast_Inv hs
    rw [hb] at hb'
    cases hb'
    dsimp only
    by_cases hreg : ∃ id, s.b.listeners.lookup id = some c
    · obtain ⟨id, hid⟩ := hreg
      obtain ⟨ch₀, hch₀, -, hch'⟩ := hin id c hid
      rw [hc] at hch₀
      cases hch₀
      exact ⟨_, hch', Or.inl rfl⟩
    · rw [hout c (fun id hid => hreg ⟨id, hid⟩)]
      exact ⟨ch, hc, Or.inl rfl⟩
  | receive c' =>
    obtain ⟨r, hr, rfl⟩ := Option.map_eq_some'.1 h
    obtain ⟨res, h'⟩ := r
    dsimp only
    rw [recv_getElem? hr c, hc]
    refine ⟨_, rfl, Or.inl ?_⟩
    split_ifs <;> rfl

/-- A channel that is closed stays closed along every sequence of steps. -/
theorem closed_run {c : ChanRef} {ops : List Op} :
    ∀ {s s' : Sys} {ch : Chan}, Inv s → s.b.chans[c]? = some ch → ch.closed = true →
      s.run ops = some s' → ∃ ch', s'.b.chans[c]? = some ch' ∧ ch'.closed = true := by
  induction ops with
  | nil =>
    intro s s' ch _ hc hcl h
    cases h
    exact ⟨ch, hc, hcl⟩
  | cons op ops ih =>
    intro s s' ch hs hc hcl h
    obtain ⟨s₁, h₁, h₂⟩ := Option.bind_eq_some.1 h
    obtain ⟨ch₁, hch₁, hcases⟩ := exec_closed hs h₁ hc
    refine ih (Inv_exec hs h₁) hch₁ ?_ h₂
    rcases hcases with e | ⟨e, -, -⟩
    · rw [e]; exact hcl
    · rw [hcl] at e; cases e

/-- A channel that is closed is left as it is by every call on the broadcaster. -/
theorem closed_stays {s s' : Sys} (hs : Inv s) {c : ChanRef} {ch : Chan}
    (hc : s.b.chans[c]? = some ch) (hcl : ch.closed = true) {op : Op}
    (hcall : op.isCall = true) (h : s.exec op = some s') : s'.b.chans[c]? = some ch := by
  have hnot : ∀ id, s.b.listeners.lookup id ≠ some c := by
    intro id hid
    obtain ⟨ch', hch', ho⟩ := hs.openReg id c hid
    rw [hc] at hch'
    cases hch'
    rw [hcl] at ho
    cases ho
  cases op with
  | register rand =>
    obtain ⟨r, hr, rfl⟩ := Option.map_eq_some'.1 h
    dsimp only
    rw [(Register_some hr).2.2.2.1, List.getElem?_append_left (getElem?_lt hc)]
    exact hc
  | unregister id =>
    obtain ⟨b', hb, rfl⟩ := Option.map_eq_some'.1 h
    dsimp only
    rcases hl : s.b.listeners.lookup id with _ | c'
    · rw [Unregister_absent hl] at hb
      cases hb
      exact hc
    · obtain ⟨ch', hch', ho⟩ := hs.openReg id c' hl
      rw [Unregister_present hl hch' ho] at hb
      cases hb
      dsimp only
      have hne : c' ≠ c := fun e => hnot id (e ▸ hl)
      rw [List.getElem?_set_ne hne]
      exact hc
  | broadcast =>
    obtain ⟨b', hb, rfl⟩ := Option.map_eq_some'.1 h
    obtain ⟨b'', hb', -, -, -, hout⟩ := Broadcast_Inv hs
    rw [hb] at hb'
    cases hb'
    dsimp only
    rw [hout c hnot]
    exact hc
  | receive c' => cases hcall

/-- A channel that is closed is left as it is by every sequence of calls. -/
theorem closed_stays_run {c : ChanRef} {ch : Chan} {ops : List Op}
    (hcall : ∀ op ∈ ops, op.isCall = true) :
    ∀ {s s' : Sys}, Inv s → s.b.chans[c]? = some ch → ch.closed = true →
      s.run ops = some s' → s'.b.chans[c]? = some ch := by
  induction ops with
  | nil =>
    intro s s' _ hc _ h
    cases h
    exact hc
  | cons op ops ih =>
    intro s s' hs hc hcl h
    obtain ⟨s₁, h₁, h₂⟩ := Option.bind_eq_some.1 h
    exact ih (fun o ho => hcall o (List.mem_cons_of_mem _ ho)) (Inv_exec hs h₁)
      (closed_stays hs hc hcl (hcall op (List.mem_cons_self _ _)) h₁) hcl h₂

/-- Once a send has panicked the rest of the `range` loop does not run. -/
theorem foldl_sendTo_none (l : List (Sigma fun _ : Int => ChanRef)) :
    l.foldl (fun d e => sendTo d e.1 e.2) none = none := by
  induction l with
  | nil => rfl
  | cons e t ih => exact ih

/-- The `range` loop of `Broadcast` along any list of map entries, when it completes:
the store keeps its size, a channel that is not listed is untouched, and every
channel keeps its capacity and its open or closed status. -/
theorem foldl_sendTo_frame (l : List (Sigma fun _ : Int => ChanRef)) :
    ∀ h h' : Heap, l.foldl (fun d e => sendTo d e.1 e.2) (some h) = some h' →
      h'.length = h.length ∧
      (∀ c : ChanRef, (∀ e ∈ l, e.2 ≠ c) → h'[c]? = h[c]?) ∧
      (∀ (c : ChanRef) (ch : Chan), h[c]? = some ch →
        ∃ ch', h'[c]? = some ch' ∧ ch'.closed = ch.closed ∧ ch'.cap = ch.cap) := by
  induction l with
  | nil =>
    intro h h' hrun
    cases hrun
    exact ⟨rfl, fun _ _ => rfl, fun c ch hc => ⟨ch, hc, rfl, rfl⟩⟩
  | cons e t ih =>
    intro h h' hrun
    rw [List.foldl_cons] at hrun
    rcases hstep : sendTo (some h) e.1 e.2 with _ | h₁
    · rw [hstep, foldl_sendTo_none] at hrun
      cases hrun
    · rw [hstep] at hrun
      obtain ⟨hlen, hout, hkeep⟩ := ih h₁ h' hrun
      have hstep' : trySend h e.2 1 = some h₁ := hstep
      rw [trySend_eq] at hstep'
      rcases hc₀ : h[e.2]? with _ | ch₀
      · rw [hc₀] at hstep'; cases hstep'
      · rw [hc₀] at hstep'
        dsimp only at hstep'
        split_ifs at hstep' with hcl
        cases hstep'
        refine ⟨by rw [hlen, List.length_set], ?_, ?_⟩
        · intro c hc
          rw [hout c (fun e' he' => hc e' (List.mem_cons_of_mem _ he')),
            List.getElem?_set_ne (hc e (List.mem_cons_self _ _))]
        · intro c ch hch
          by_cases hcc : e.2 = c
          · subst hcc
            rw [hc₀] at hch
            cases hch
            obtain ⟨ch', hch', hcl', hcap'⟩ := hkeep e.2 (offer ch₀ 1)
              (List.getElem?_set_self (getElem?_lt hc₀))
            exact ⟨ch', hch', by rw [hcl', offer_closed], by rw [hcap', offer_cap]⟩
          · exact hkeep c ch (by rw [List.getElem?_set_ne hcc]; exact hch)

/-- `Broadcast` is the `range` loop along a list that holds every entry of the map
once: one `select` per registered listener. -/
theorem Broadcast_eq_foldl (b : broadcaster) :
    ∃ l : List (Sigma fun _ : Int => ChanRef),
      l.Nodup ∧ (∀ (id : Int) (c : ChanRef), Sigma.mk id c ∈ l ↔ b.listeners.lookup id = some c) ∧
      l.length = b.listeners.keys.card ∧
      b.Broadcast = (l.foldl (fun d e => sendTo d e.1 e.2) (some b.chans)).map
        fun chans => { b with chans := chans } := by
  obtain ⟨m, chans⟩ := b
  induction m using Finmap.induction_on with
  | H a =>
    refine ⟨a.entries, a.nodupKeys.nodup, ?_, ?_, rfl⟩
    · intro id c
      show _ ↔ Finmap.lookup id (AList.toFinmap a) = some c
      rw [Finmap.lookup_toFinmap, ← Option.mem_def, AList.mem_lookup_iff]
    · show _ = (Finmap.keys (AList.toFinmap a)).card
      rw [Finset.card_def, Finmap.keys_val, Multiset.coe_card]
      exact (List.length_map _ _).symm

/-- The id loop of `Register` ends as soon as the draws hold a value that is not a
key. -/
theorem findId_total (l : Finmap fun _ : Int => ChanRef) :
    ∀ rand : List Int, (∃ d ∈ rand, d ∉ l) → ∃ id rest, findId l rand = some (id, rest) := by
  intro rand
  induction rand with
  | nil => rintro ⟨d, hd, -⟩; cases hd
  | cons x xs ih =>
    rintro ⟨d, hd, hfree⟩
    unfold findId
    rcases hx : l.lookup x with _ | c
    · exact ⟨x, xs, rfl⟩
    · rcases List.mem_cons.1 hd with rfl | hd
      · exact absurd (Finmap.mem_of_lookup_eq_some hx) hfree
      · exact ih ⟨d, hd, hfree⟩

/-- The id loop of `Register` on the first `m` values of a stream of draws whose first
value that is not a key has index `k < m`: it returns that value. -/
theorem findId_stream (l : Finmap fun _ : Int => ChanRef) :
    ∀ (k : Nat) (draws : Nat → Int), draws k ∉ l → (∀ j, j < k → draws j ∈ l) →
      ∀ m, k < m → ∃ rest, findId l ((List.range m).map draws) = some (draws k, rest) := by
  intro k
  induction k with
  | zero =>
    intro draws hfree _ m hm
    obtain ⟨m', rfl⟩ : ∃ m', m = m' + 1 := ⟨m - 1, by omega⟩
    rw [List.range_succ_eq_map, List.map_cons]
    unfold findId
    rw [Finmap.lookup_eq_none.2 hfree]
    exact ⟨_, rfl⟩
  | succ k ih =>
    intro draws hfree hbusy m hm
    obtain ⟨m', rfl⟩ : ∃ m', m = m' + 1 := ⟨m - 1, by omega⟩
    rw [List.range_succ_eq_map, List.map_cons, List.map_map]
    unfold findId
    obtain ⟨c, hc⟩ := Finmap.mem_iff.1 (hbusy 0 (Nat.succ_pos k))
    rw [hc]
    exact ih (draws ∘ Nat.succ) hfree (fun j hj => hbusy (j + 1) (by omega)) m' (by omega)

/-! ## The claims -/

/-- C1, uniqueness.  After every sequence of `Register`, `Unregister` and `Broadcast`
calls (and consumer receives) from `NewBroadcaster()` in which every call returned, the
ids that `Register` returned and that were not passed to `Unregister` since (`live`) are
pairwise distinct and are exactly the keys of the map; and an id that a further
`Register` returns is neither a key of the map nor one of the live ids before the
call. -/
theorem Register_unique (ops : List Op) (s : Sys) (h : Sys.init.run ops = some s) :
    (s.live.map Prod.fst).Nodup ∧
      (∀ id, id ∈ s.live.map Prod.fst ↔ id ∈ s.b.listeners) ∧
      ∀ rand r, s.b.Register rand = some r →
        s.b.listeners.lookup r.id = none ∧ r.id ∉ s.live.map Prod.fst := by
  have hs := Inv_reachable h
  have hkeys : ∀ id, id ∈ s.live.map Prod.fst ↔ id ∈ s.b.listeners := by
    intro id
    rw [Finmap.mem_iff, List.mem_map]
    constructor
    · rintro ⟨⟨k, v⟩, hp, rfl⟩
      exact ⟨v, (hs.liveIff k v).1 hp⟩
    · rintro ⟨v, hv⟩
      exact ⟨(id, v), (hs.liveIff id v).2 hv, rfl⟩
  refine ⟨hs.liveNodup, hkeys, ?_⟩
  intro rand r hr
  have hn := (Register_some hr).1
  exact ⟨hn, fun hm => Finmap.lookup_eq_none.1 hn ((hkeys _).1 hm)⟩

theorem Register_unique_witness :
    Sys.init.run [Op.register [5], Op.register [5, 7], Op.broadcast, Op.unregister 5,
        Op.register [7, 5]]
      = some { b := { listeners := ((∅ : Finmap fun _ : Int => ChanRef).insert 7 1).insert 5 2,
                      chans := [⟨[1], 1, true⟩, ⟨[1], 1, false⟩, ⟨[], 1, false⟩] },
               issued := [(5, 0), (7, 1), (5, 2)], live := [(7, 1), (5, 2)] } ∧
      (([(7, 1), (5, 2)] : List (Int × ChanRef)).map Prod.fst).Nodup :=
  ⟨by decide,
    (Register_unique
      [Op.register [5], Op.register [5, 7], Op.broadcast, Op.unregister 5, Op.register [7, 5]]
      { b := { listeners := ((∅ : Finmap fun _ : Int => ChanRef).insert 7 1).insert 5 2,
               chans := [⟨[1], 1, true⟩, ⟨[1], 1, false⟩, ⟨[], 1, false⟩] },
        issued := [(5, 0), (7, 1), (5, 2)], live := [(7, 1), (5, 2)] }
      (by decide)).1⟩

/-- C2, postcondition of `Register`.  In every state, a `Register` that returns
`(id, c)` leaves the map equal to the old one with the one entry `id ↦ c` added, `id`
was not a key and the number of keys grows by one; `c` did not exist before and is
now an open, empty channel of capacity one; every old entry and every old channel is
unchanged. -/
theorem Register_post (b : broadcaster) (rand : List Int) (r : Registered)
    (h : b.Register rand = some r) :
    r.b.listeners = b.listeners.insert r.id r.c ∧ r.id ∉ b.listeners ∧
      r.b.listeners.keys.card = b.listeners.keys.card + 1 ∧
      (∀ k v, r.b.listeners.lookup k = some v ↔
        (k = r.id ∧ v = r.c) ∨ b.listeners.lookup k = some v) ∧
      b.chans[r.c]? = none ∧
      r.b.chans[r.c]? = some { buf := [], cap := 1, closed := false } ∧
      r.b.chans.length = b.chans.length + 1 ∧
      (∀ k v, b.listeners.lookup k = some v → r.b.listeners.lookup k = some v) ∧
      (∀ (c : ChanRef) (ch : Chan), b.chans[c]? = some ch → r.b.chans[c]? = some ch) := by
  obtain ⟨hnone, hc, hl, hch, -⟩ := Register_some h
  have hnot : r.id ∉ b.listeners := Finmap.lookup_eq_none.1 hnone
  have hold : ∀ k v, b.listeners.lookup k = some v → k ≠ r.id := by
    rintro k v hk rfl
    rw [hnone] at hk; cases hk
  refine ⟨hl, hnot, ?_, ?_, ?_, ?_, ?_, ?_, ?_⟩
  · rw [hl]; exact keys_insert_absent hnot
  · intro k v
    rw [hl, lookup_insert_iff]
    constructor
    · rintro (hk | ⟨-, hk⟩)
      · exact Or.inl hk
      · exact Or.inr hk
    · rintro (hk | hk)
      · exact Or.inl hk
      · exact Or.inr ⟨hold k v hk, hk⟩
  · rw [hc]; exact List.getElem?_eq_none (le_refl _)
  · rw [hch, hc]; exact List.getElem?_concat_length _ _
  · rw [hch, List.length_append, List.length_singleton]
  · intro k v hk
    rw [hl, lookup_insert_iff]
    exact Or.inr ⟨hold k v hk, hk⟩
  · intro c ch hcc
    rw [hch, List.getElem?_append_left (getElem?_lt hcc)]
    exact hcc

theorem Register_post_witness :
    (⟨(∅ : Finmap fun _ : Int => ChanRef).insert 5 0, [⟨[1], 1, false⟩]⟩ : broadcaster).Register
        [5, 5, 9, 4]
      = some { id := 9, c := 1,
               b := ⟨((∅ : Finmap fun _ : Int => ChanRef).insert 5 0).insert 9 1,
                     [⟨[1], 1, false⟩, ⟨[], 1, false⟩]⟩,
               rest := [4] } ∧
      (9 : Int) ∉ (∅ : Finmap fun _ : Int => ChanRef).insert 5 0 :=
  ⟨by decide,
    (Register_post ⟨(∅ : Finmap fun _ : Int => ChanRef).insert 5 0, [⟨[1], 1, false⟩]⟩
      [5, 5, 9, 4]
      { id := 9, c := 1,
        b := ⟨((∅ : Finmap fun _ : Int => ChanRef).insert 5 0).insert 9 1,
              [⟨[1], 1, false⟩, ⟨[], 1, false⟩]⟩,
        rest := [4] }
      (by decide)).2.1⟩


/-- C3, `Unregister` of a registered id.  In every state, for every id that is a key
of the map with channel `c`: after an `Unregister(id)` that returns, `id` is not a key
of the map and `c` is closed; and in every state the broadcaster reaches from
`NewBroadcaster()` the call does return. -/
theorem Unregister_removes (s : Sys) (id : Int) (c : ChanRef)
    (hl : s.b.listeners.lookup id = some c) :
    (∀ b', s.b.Unregister id = some b' →
      b'.listeners.lookup id = none ∧ id ∉ b'.listeners ∧
        ∃ ch, b'.chans[c]? = some ch ∧ ch.closed = true) ∧
      (∀ ops, Sys.init.run ops = some s → ∃ b', s.b.Unregister id = some b') := by
  constructor
  · intro b' h
    unfold broadcaster.Unregister closeChan at h
    rw [hl] at h
    dsimp only at h
    rcases hc : s.b.chans[c]? with _ | ch
    · rw [hc] at h; cases h
    · rw [hc] at h
      dsimp only at h
      split_ifs at h with hcl
      cases h
      exact ⟨Finmap.lookup_erase _ _, Finmap.not_mem_erase_self, { ch with closed := true },
        List.getElem?_set_self (getElem?_lt hc), rfl⟩
  · intro ops h
    obtain ⟨ch, hch, ho⟩ := (Inv_reachable h).openReg id c hl
    exact ⟨_, Unregister_present hl hch ho⟩

theorem Unregister_removes_witness :
    (((∅ : Finmap fun _ : Int => ChanRef).insert 5 0).insert 7 1).lookup 5 = some 0 ∧
      Sys.init.run [Op.register [5], Op.broadcast, Op.register [5, 7]]
        = some { b := { listeners := ((∅ : Finmap fun _ : Int => ChanRef).insert 5 0).insert 7 1,
                        chans := [⟨[1], 1, false⟩, ⟨[], 1, false⟩] },
                 issued := [(5, 0), (7, 1)], live := [(5, 0), (7, 1)] } ∧
      ∃ b', (⟨((∅ : Finmap fun _ : Int => ChanRef).insert 5 0).insert 7 1,
              [⟨[1], 1, false⟩, ⟨[], 1, false⟩]⟩ : broadcaster).Unregister 5 = some b' :=
  ⟨by decide, by decide,
    (Unregister_removes
      { b := { listeners := ((∅ : Finmap fun _ : Int => ChanRef).insert 5 0).insert 7 1,
               chans := [⟨[1], 1, false⟩, ⟨[], 1, false⟩] },
        issued := [(5, 0), (7, 1)], live := [(5, 0), (7, 1)] }
      5 0 (by decide)).2 [Op.register [5], Op.broadcast, Op.register [5, 7]] (by decide)⟩

/-- C4, `Unregister` of an id that is not registered.  In every state, when `id` is
not a key of the map `Unregister(id)` returns and the state after it is the state
before it, map and channels; and in every state and for every id, `Unregister(id)`
twice gives what `Unregister(id)` once gives. -/
theorem Unregister_idempotent (b : broadcaster) (id : Int) :
    (b.listeners.lookup id = none → b.Unregister id = some b) ∧
      (b.Unregister id).bind (fun b' => b'.Unregister id) = b.Unregister id := by
  refine ⟨Unregister_absent, ?_⟩
  rcases h : b.Unregister id with _ | b'
  · rfl
  · show b'.Unregister id = some b'
    apply Unregister_absent
    unfold broadcaster.Unregister at h
    rcases hl : b.listeners.lookup id with _ | c
    · rw [hl] at h
      cases h
      exact hl
    · rw [hl] at h
      dsimp only at h
      rcases hc : closeChan b.chans c with _ | chans
      · rw [hc] at h; cases h
      · rw [hc] at h
        cases h
        exact Finmap.lookup_erase _ _

theorem Unregister_idempotent_witness :
    (⟨(∅ : Finmap fun _ : Int => ChanRef).insert 5 0, [⟨[1], 1, false⟩]⟩ : broadcaster).listeners.lookup
        8 = none ∧
      (⟨(∅ : Finmap fun _ : Int => ChanRef).insert 5 0, [⟨[1], 1, false⟩]⟩ : broadcaster).Unregister 8
        = some ⟨(∅ : Finmap fun _ : Int => ChanRef).insert 5 0, [⟨[1], 1, false⟩]⟩ :=
  ⟨by decide,
    (Unregister_idempotent ⟨(∅ : Finmap fun _ : Int => ChanRef).insert 5 0, [⟨[1], 1, false⟩]⟩
      8).1 (by decide)⟩

/-- C5, `Unregister` leaves the other listeners alone.  In every state the broadcaster
reaches and for every id, registered or not, `Unregister(id)` returns, every entry of
the map under another key is still mapped to the same channel, and that channel is
unchanged: same pending content, same open or closed status. -/
theorem Unregister_frame (ops : List Op) (s : Sys) (h : Sys.init.run ops = some s)
    (id : Int) :
    ∃ b', s.b.Unregister id = some b' ∧
      ∀ k c, k ≠ id → s.b.listeners.lookup k = some c →
        b'.listeners.lookup k = some c ∧ b'.chans[c]? = s.b.chans[c]? := by
  have hs := Inv_reachable h
  rcases hl : s.b.listeners.lookup id with _ | c₀
  · exact ⟨s.b, Unregister_absent hl, fun k c _ hk => ⟨hk, rfl⟩⟩
  · obtain ⟨ch, hch, ho⟩ := hs.openReg id c₀ hl
    refine ⟨_, Unregister_present hl hch ho, ?_⟩
    intro k c hne hk
    refine ⟨lookup_erase_iff.2 ⟨hne, hk⟩, ?_⟩
    have hcc : c₀ ≠ c := fun e => hne (hs.inj k id c hk (e ▸ hl))
    exact List.getElem?_set_ne hcc

theorem Unregister_frame_witness :
    Sys.init.run [Op.register [5], Op.register [7], Op.broadcast]
      = some { b := { listeners := ((∅ : Finmap fun _ : Int => ChanRef).insert 5 0).insert 7 1,
                      chans := [⟨[1], 1, false⟩, ⟨[1], 1, false⟩] },
               issued := [(5, 0), (7, 1)], live := [(5, 0), (7, 1)] } ∧
      ∃ b', (⟨((∅ : Finmap fun _ : Int => ChanRef).insert 5 0).insert 7 1,
              [⟨[1], 1, false⟩, ⟨[1], 1, false⟩]⟩ : broadcaster).Unregister 5 = some b' ∧
        ∀ k c, k ≠ 5 →
          (((∅ : Finmap fun _ : Int => ChanRef).insert 5 0).insert 7 1).lookup k = some c →
          b'.listeners.lookup k = some c ∧
            b'.chans[c]? = ([⟨[1], 1, false⟩, ⟨[1], 1, false⟩] : Heap)[c]? :=
  ⟨by decide,
    Unregister_frame [Op.register [5], Op.register [7], Op.broadcast]
      { b := { listeners := ((∅ : Finmap fun _ : Int => ChanRef).insert 5 0).insert 7 1,
               chans := [⟨[1], 1, false⟩, ⟨[1], 1, false⟩] },
        issued := [(5, 0), (7, 1)], live := [(5, 0), (7, 1)] }
      (by decide) 5⟩


/-- C6, `Broadcast` delivers.  In every state the broadcaster reaches, `Broadcast`
returns, and afterwards every channel that was registered and empty holds exactly the
one value 1; in particular every channel `c` that `Register` returned with an id not
passed to `Unregister` since holds a pending notification. -/
theorem Broadcast_delivers (ops : List Op) (s : Sys) (h : Sys.init.run ops = some s) :
    ∃ b', s.b.Broadcast = some b' ∧
      (∀ (id : Int) (c : ChanRef) (ch : Chan), s.b.listeners.lookup id = some c →
        s.b.chans[c]? = some ch → ch.buf = [] →
          ∃ ch', b'.chans[c]? = some ch' ∧ ch'.buf = [1]) ∧
      (∀ (id : Int) (c : ChanRef), (id, c) ∈ s.live →
        ∃ ch', b'.chans[c]? = some ch' ∧ ch'.buf = [1]) := by
  have hs := Inv_reachable h
  obtain ⟨b', hb, -, -, hin, -⟩ := Broadcast_Inv hs
  refine ⟨b', hb, ?_, ?_⟩
  · intro id c ch hid _ _
    obtain ⟨ch₀, -, -, hch'⟩ := hin id c hid
    exact ⟨_, hch', rfl⟩
  · intro id c hlive
    obtain ⟨ch₀, -, -, hch'⟩ := hin id c ((hs.liveIff id c).1 hlive)
    exact ⟨_, hch', rfl⟩

theorem Broadcast_delivers_witness :
    Sys.init.run [Op.register [5], Op.broadcast, Op.register [5, 7], Op.unregister 5,
        Op.register [3]]
      = some { b := { listeners := ((∅ : Finmap fun _ : Int => ChanRef).insert 7 1).insert 3 2,
                      chans := [⟨[1], 1, true⟩, ⟨[], 1, false⟩, ⟨[], 1, false⟩] },
               issued := [(5, 0), (7, 1), (3, 2)], live := [(7, 1), (3, 2)] } ∧
      ∃ b', (⟨((∅ : Finmap fun _ : Int => ChanRef).insert 7 1).insert 3 2,
              [⟨[1], 1, true⟩, ⟨[], 1, false⟩, ⟨[], 1, false⟩]⟩ : broadcaster).Broadcast
          = some b' ∧
        ∃ ch', b'.chans[1]? = some ch' ∧ ch'.buf = [1] :=
  ⟨by decide,
    (Broadcast_delivers
      [Op.register [5], Op.broadcast, Op.register [5, 7], Op.unregister 5, Op.register [3]]
      { b := { listeners := ((∅ : Finmap fun _ : Int => ChanRef).insert 7 1).insert 3 2,
               chans := [⟨[1], 1, true⟩, ⟨[], 1, false⟩, ⟨[], 1, false⟩] },
        issued := [(5, 0), (7, 1), (3, 2)], live := [(7, 1), (3, 2)] }
      (by decide)).imp fun _ hb => ⟨hb.1, hb.2.2 7 1 (by decide)⟩⟩

/-- C7, coalescing.  In every state reached through `Register`, `Unregister`,
`Broadcast` and consumer receives, every channel holds at most one pending
notification; and `Broadcast` returns and leaves a registered channel that already
held a notification with that same single notification, not two. -/
theorem Broadcast_coalesces (ops : List Op) (s : Sys) (h : Sys.init.run ops = some s) :
    (∀ (c : ChanRef) (ch : Chan), s.b.chans[c]? = some ch → ch.buf.length ≤ 1) ∧
      ∃ b', s.b.Broadcast = some b' ∧
        ∀ (id : Int) (c : ChanRef) (ch : Chan), s.b.listeners.lookup id = some c →
          s.b.chans[c]? = some ch → ch.buf ≠ [] →
            ∃ ch', b'.chans[c]? = some ch' ∧ ch'.buf = ch.buf ∧ ch'.buf.length = 1 := by
  have hs := Inv_reachable h
  constructor
  · intro c ch hc
    rcases (hs.slot c ch hc).2 with hb | hb <;> simp [hb]
  · obtain ⟨b', hb, -, -, hin, -⟩ := Broadcast_Inv hs
    refine ⟨b', hb, ?_⟩
    intro id c ch hid hc hne
    obtain ⟨ch₀, hc₀, -, hch'⟩ := hin id c hid
    rw [hc] at hc₀
    cases hc₀
    refine ⟨_, hch', ?_, rfl⟩
    rcases (hs.slot c ch hc).2 with hb | hb
    · exact absurd hb hne
    · exact hb.symm

theorem Broadcast_coalesces_witness :
    Sys.init.run [Op.register [5], Op.broadcast, Op.register [7]]
      = some { b := { listeners := ((∅ : Finmap fun _ : Int => ChanRef).insert 5 0).insert 7 1,
                      chans := [⟨[1], 1, false⟩, ⟨[], 1, false⟩] },
               issued := [(5, 0), (7, 1)], live := [(5, 0), (7, 1)] } ∧
      ∃ b', (⟨((∅ : Finmap fun _ : Int => ChanRef).insert 5 0).insert 7 1,
              [⟨[1], 1, false⟩, ⟨[], 1, false⟩]⟩ : broadcaster).Broadcast = some b' ∧
        ∃ ch', b'.chans[0]? = some ch' ∧ ch'.buf = [1] ∧ ch'.buf.length = 1 :=
  ⟨by decide,
    (Broadcast_coalesces [Op.register [5], Op.broadcast, Op.register [7]]
      { b := { listeners := ((∅ : Finmap fun _ : Int => ChanRef).insert 5 0).insert 7 1,
               chans := [⟨[1], 1, false⟩, ⟨[], 1, false⟩] },
        issued := [(5, 0), (7, 1)], live := [(5, 0), (7, 1)] }
      (by decide)).2.imp fun _ hb => ⟨hb.1, hb.2 5 0 ⟨[1], 1, false⟩ (by decide) rfl (by decide)⟩⟩

/-- C8, silence after `Unregister`.  In every state the broadcaster reaches and for
every registered id with channel `c`, `Unregister(id)` returns, and after every
further sequence of `Broadcast`, `Register` and `Unregister` calls the channel `c` is
what it was right after the `Unregister`: same pending content, still closed. -/
theorem Unregister_silence (ops : List Op) (s : Sys) (h : Sys.init.run ops = some s)
    (id : Int) (c : ChanRef) (hl : s.b.listeners.lookup id = some c) :
    ∃ s₁, s.exec (Op.unregister id) = some s₁ ∧
      (∃ ch, s₁.b.chans[c]? = some ch ∧ ch.closed = true) ∧
      ∀ ops' s₂, (∀ op ∈ ops', op.isCall = true) → s₁.run ops' = some s₂ →
        s₂.b.chans[c]? = s₁.b.chans[c]? := by
  have hs := Inv_reachable h
  obtain ⟨ch, hch, ho⟩ := hs.openReg id c hl
  have hex : s.exec (Op.unregister id) = some
      { b := { listeners := s.b.listeners.erase id,
               chans := s.b.chans.set c { ch with closed := true } },
        issued := s.issued, live := s.live.filter fun p => p.1 ≠ id } := by
    show Option.map _ (s.b.Unregister id) = _
    rw [Unregister_present hl hch ho]
    rfl
  have hc₁ : (s.b.chans.set c { ch with closed := true })[c]? =
      some { ch with closed := true } := List.getElem?_set_self (getElem?_lt hch)
  refine ⟨_, hex, ⟨_, hc₁, rfl⟩, ?_⟩
  intro ops' s₂ hcall hrun
  rw [closed_stays_run hcall (Inv_exec hs hex) hc₁ rfl hrun]
  exact hc₁.symm

theorem Unregister_silence_witness :
    Sys.init.run [Op.register [5], Op.register [7], Op.broadcast, Op.receive 0]
      = some { b := { listeners := ((∅ : Finmap fun _ : Int => ChanRef).insert 5 0).insert 7 1,
                      chans := [⟨[], 1, false⟩, ⟨[1], 1, false⟩] },
               issued := [(5, 0), (7, 1)], live := [(5, 0), (7, 1)] } ∧
      (((∅ : Finmap fun _ : Int => ChanRef).insert 5 0).insert 7 1).lookup 5 = some 0 ∧
      ∃ s₁, (⟨⟨((∅ : Finmap fun _ : Int => ChanRef).insert 5 0).insert 7 1,
               [⟨[], 1, false⟩, ⟨[1], 1, false⟩]⟩, [(5, 0), (7, 1)], [(5, 0), (7, 1)]⟩ : Sys).exec
            (Op.unregister 5) = some s₁ ∧
          ∀ s₂, s₁.run [Op.broadcast, Op.register [5], Op.broadcast, Op.unregister 7]
            = some s₂ → s₂.b.chans[0]? = s₁.b.chans[0]? :=
  ⟨by decide, by decide,
    (Unregister_silence [Op.register [5], Op.register [7], Op.broadcast, Op.receive 0]
      { b := { listeners := ((∅ : Finmap fun _ : Int => ChanRef).insert 5 0).insert 7 1,
               chans := [⟨[], 1, false⟩, ⟨[1], 1, false⟩] },
        issued := [(5, 0), (7, 1)], live := [(5, 0), (7, 1)] }
      (by decide) 5 0 (by decide)).imp fun _ hb =>
        ⟨hb.1, fun s₂ => hb.2.2 [Op.broadcast, Op.register [5], Op.broadcast, Op.unregister 7] s₂
          (by decide)⟩⟩


/-- C9 as stated fails: after `Register`, `Broadcast` and `Unregister` of the returned
id, the first receive on the returned channel observes the pending notification 1, not
the closed signal. -/
theorem wait_after_Unregister_counterexample :
    Sys.init.run [Op.register [5], Op.broadcast]
      = some { b := { listeners := (∅ : Finmap fun _ : Int => ChanRef).insert 5 0,
                      chans := [⟨[1], 1, false⟩] },
               issued := [(5, 0)], live := [(5, 0)] } ∧
      ((∅ : Finmap fun _ : Int => ChanRef).insert 5 0).lookup 5 = some 0 ∧
      (⟨(∅ : Finmap fun _ : Int => ChanRef).insert 5 0, [⟨[1], 1, false⟩]⟩ : broadcaster).Unregister 5
        = some ⟨∅, [⟨[1], 1, true⟩]⟩ ∧
      recv [⟨[1], 1, true⟩] 0 = some (RecvResult.value 1, [⟨[], 1, true⟩]) ∧
      recv [⟨[1], 1, true⟩] 0 ≠ some (RecvResult.closed, [⟨[1], 1, true⟩]) := by
  decide

/-- C9, amended.  In every state the broadcaster reaches and for every registered id
with channel `c`, `Unregister(id)` returns, and then: when `c` was empty at the call,
a receive on `c` observes the closed signal; when `c` held a pending notification, the
first receive on `c` observes that notification, the value 1, and the receive after it
observes the closed signal. -/
theorem wait_after_Unregister (ops : List Op) (s : Sys) (h : Sys.init.run ops = some s)
    (id : Int) (c : ChanRef) (hl : s.b.listeners.lookup id = some c) :
    ∃ b' ch, s.b.Unregister id = some b' ∧ s.b.chans[c]? = some ch ∧
      (ch.buf = [] → recv b'.chans c = some (RecvResult.closed, b'.chans)) ∧
      (ch.buf ≠ [] → ∃ h₁, recv b'.chans c = some (RecvResult.value 1, h₁) ∧
        recv h₁ c = some (RecvResult.closed, h₁)) := by
  have hs := Inv_reachable h
  obtain ⟨ch, hch, ho⟩ := hs.openReg id c hl
  have hlt := getElem?_lt hch
  refine ⟨_, ch, Unregister_present hl hch ho, hch, ?_, ?_⟩
  · intro hb
    unfold recv
    dsimp only
    rw [List.getElem?_set_self hlt]
    simp [hb]
  · intro hne
    have hb : ch.buf = [1] := by
      rcases (hs.slot c ch hch).2 with hb | hb
      · exact absurd hb hne
      · exact hb
    refine ⟨(s.b.chans.set c { ch with closed := true }).set c
      { buf := [], cap := ch.cap, closed := true }, ?_, ?_⟩
    · unfold recv
      dsimp only
      rw [List.getElem?_set_self hlt]
      simp only [hb]
    · unfold recv
      rw [List.getElem?_set_self (by simp [hlt])]
      rfl

theorem wait_after_Unregister_witness :
    Sys.init.run [Op.register [5], Op.register [7], Op.broadcast, Op.receive 1]
      = some { b := { listeners := ((∅ : Finmap fun _ : Int => ChanRef).insert 5 0).insert 7 1,
                      chans := [⟨[1], 1, false⟩, ⟨[], 1, false⟩] },
               issued := [(5, 0), (7, 1)], live := [(5, 0), (7, 1)] } ∧
      (((∅ : Finmap fun _ : Int => ChanRef).insert 5 0).insert 7 1).lookup 7 = some 1 ∧
      ∃ b' ch, (⟨((∅ : Finmap fun _ : Int => ChanRef).insert 5 0).insert 7 1,
              [⟨[1], 1, false⟩, ⟨[], 1, false⟩]⟩ : broadcaster).Unregister 7 = some b' ∧
        ([⟨[1], 1, false⟩, ⟨[], 1, false⟩] : Heap)[1]? = some ch ∧
        (ch.buf = [] → recv b'.chans 1 = some (RecvResult.closed, b'.chans)) :=
  ⟨by decide, by decide,
    (wait_after_Unregister [Op.register [5], Op.register [7], Op.broadcast, Op.receive 1]
      { b := { listeners := ((∅ : Finmap fun _ : Int => ChanRef).insert 5 0).insert 7 1,
               chans := [⟨[1], 1, false⟩, ⟨[], 1, false⟩] },
        issued := [(5, 0), (7, 1)], live := [(5, 0), (7, 1)] }
      (by decide) 7 1 (by decide)).imp fun _ hb => hb.imp fun _ hc => ⟨hc.1, hc.2.1, hc.2.2.1⟩⟩


/-- C10, life of a slot.  In every state reached from `NewBroadcaster()`: a channel
that `Register` returned with `id` exists and is open exactly when the map holds it
under `id`; a channel that `Register` returns is open and is none of the channels
returned before, also when the id is one used before; in a step, an open channel is
closed only by `Unregister` of the id it is registered under; and a closed channel is
closed and not in the map after every further sequence of steps. -/
theorem slot_lifecycle (ops : List Op) (s : Sys) (h : Sys.init.run ops = some s) :
    (∀ (id : Int) (c : ChanRef), (id, c) ∈ s.issued →
      ∃ ch, s.b.chans[c]? = some ch ∧
        (ch.closed = false ↔ s.b.listeners.lookup id = some c)) ∧
      (∀ rand r, s.b.Register rand = some r →
        r.c ∉ s.issued.map Prod.snd ∧ ∃ ch, r.b.chans[r.c]? = some ch ∧ ch.closed = false) ∧
      (∀ op s', s.exec op = some s' →
        ∀ (c : ChanRef) (ch : Chan), s.b.chans[c]? = some ch → ch.closed = false →
          ∃ ch', s'.b.chans[c]? = some ch' ∧
            (ch'.closed = true →
              ∃ id, op = Op.unregister id ∧ s.b.listeners.lookup id = some c)) ∧
      ∀ ops' s', s.run ops' = some s' →
        ∀ (c : ChanRef) (ch : Chan), s.b.chans[c]? = some ch → ch.closed = true →
          ∃ ch', s'.b.chans[c]? = some ch' ∧ ch'.closed = true ∧
            ∀ k, s'.b.listeners.lookup k ≠ some c := by
  have hs := Inv_reachable h
  refine ⟨?_, ?_, ?_, ?_⟩
  · intro id c hic
    have hmem : c ∈ s.issued.map Prod.snd := List.mem_map.2 ⟨(id, c), hic, rfl⟩
    rw [hs.issuedSlots, List.mem_range] at hmem
    refine ⟨s.b.chans[c], List.getElem?_eq_getElem hmem, ?_, ?_⟩
    · intro ho
      obtain ⟨k, hk⟩ := hs.regOpen c _ (List.getElem?_eq_getElem hmem) ho
      have hki : (k, c) ∈ s.issued := hs.liveIssued _ ((hs.liveIff k c).2 hk)
      have hnd : (s.issued.map Prod.snd).Nodup := by
        rw [hs.issuedSlots]; exact List.nodup_range _
      have := List.inj_on_of_nodup_map hnd hki hic rfl
      rw [Prod.mk.injEq] at this
      rw [← this.1]
      exact hk
    · intro hk
      obtain ⟨ch, hch, ho⟩ := hs.openReg id c hk
      rw [List.getElem?_eq_getElem hmem] at hch
      rw [Option.some.inj hch]
      exact ho
  · intro rand r hr
    obtain ⟨-, hc, -, hch, -⟩ := Register_some hr
    constructor
    · rw [hs.issuedSlots, List.mem_range, hc]
      exact lt_irrefl _
    · refine ⟨makeChan 1, ?_, rfl⟩
      rw [hch, hc]
      exact List.getElem?_concat_length _ _
  · intro op s' hex c ch hc ho
    obtain ⟨ch', hch', hcases⟩ := exec_closed hs hex hc
    refine ⟨ch', hch', ?_⟩
    intro hcl'
    rcases hcases with e | ⟨-, -, hid⟩
    · rw [e, ho] at hcl'; cases hcl'
    · exact hid
  · intro ops' s' hrun c ch hc hcl
    obtain ⟨ch', hch', hcl'⟩ := closed_run hs hc hcl hrun
    refine ⟨ch', hch', hcl', ?_⟩
    intro k hk
    obtain ⟨ch'', hch'', ho⟩ := (Inv_run hs hrun).openReg k c hk
    rw [hch'] at hch''
    cases hch''
    rw [hcl'] at ho
    cases ho

theorem slot_lifecycle_witness :
    Sys.init.run [Op.register [5], Op.broadcast, Op.unregister 5, Op.register [5]]
      = some { b := { listeners := (∅ : Finmap fun _ : Int => ChanRef).insert 5 1,
                      chans := [⟨[1], 1, true⟩, ⟨[], 1, false⟩] },
               issued := [(5, 0), (5, 1)], live := [(5, 1)] } ∧
      ∃ ch, ([⟨[1], 1, true⟩, ⟨[], 1, false⟩] : Heap)[0]? = some ch ∧
        (ch.closed = false ↔
          ((∅ : Finmap fun _ : Int => ChanRef).insert 5 1).lookup 5 = some 0) :=
  ⟨by decide,
    (slot_lifecycle [Op.register [5], Op.broadcast, Op.unregister 5, Op.register [5]]
      { b := { listeners := (∅ : Finmap fun _ : Int => ChanRef).insert 5 1,
               chans := [⟨[1], 1, true⟩, ⟨[], 1, false⟩] },
        issued := [(5, 0), (5, 1)], live := [(5, 1)] }
      (by decide)).1 5 0 (by decide)⟩


/-- C11, `Broadcast` keeps the shape of the registry.  In every state, a `Broadcast`
that returns leaves the map as it was (same ids, same channel under each id), creates
and removes no channel, leaves every channel that is not registered exactly as it was,
and leaves every channel with its capacity and its open or closed status, so only the
pending content of registered channels can differ and no channel is closed; and in
every state the broadcaster reaches the call does return. -/
theorem Broadcast_shape (s : Sys) :
    (∀ b', s.b.Broadcast = some b' →
      b'.listeners = s.b.listeners ∧ b'.chans.length = s.b.chans.length ∧
        (∀ c : ChanRef, (∀ id, s.b.listeners.lookup id ≠ some c) →
          b'.chans[c]? = s.b.chans[c]?) ∧
        (∀ (c : ChanRef) (ch : Chan), s.b.chans[c]? = some ch →
          ∃ ch', b'.chans[c]? = some ch' ∧ ch'.closed = ch.closed ∧ ch'.cap = ch.cap)) ∧
      (∀ ops, Sys.init.run ops = some s → ∃ b', s.b.Broadcast = some b') := by
  constructor
  · obtain ⟨⟨m, chans⟩, issued, live⟩ := s
    induction m using Finmap.induction_on with
    | H a =>
      intro b' hb
      have hb' : Option.map (fun chans' => (⟨AList.toFinmap a, chans'⟩ : broadcaster))
          (a.entries.foldl (fun d e => sendTo d e.1 e.2) (some chans)) = some b' := hb
      obtain ⟨h', hrun, rfl⟩ := Option.map_eq_some'.1 hb'
      obtain ⟨hlen, hout, hkeep⟩ := foldl_sendTo_frame a.entries chans h' hrun
      refine ⟨rfl, hlen, ?_, hkeep⟩
      intro c hc
      refine hout c ?_
      rintro ⟨i, c'⟩ he (heq : c' = c)
      subst heq
      refine hc i ?_
      show Finmap.lookup i (AList.toFinmap a) = some c'
      rw [Finmap.lookup_toFinmap, ← Option.mem_def, AList.mem_lookup_iff]
      exact he
  · intro ops h
    obtain ⟨b', hb, -⟩ := Broadcast_Inv (Inv_reachable h)
    exact ⟨b', hb⟩

theorem Broadcast_shape_witness :
    Sys.init.run [Op.register [5], Op.broadcast, Op.register [7], Op.unregister 5,
        Op.register [9]]
      = some { b := { listeners := ((∅ : Finmap fun _ : Int => ChanRef).insert 7 1).insert 9 2,
                      chans := [⟨[1], 1, true⟩, ⟨[], 1, false⟩, ⟨[], 1, false⟩] },
               issued := [(5, 0), (7, 1), (9, 2)], live := [(7, 1), (9, 2)] } ∧
      (⟨((∅ : Finmap fun _ : Int => ChanRef).insert 7 1).insert 9 2,
          [⟨[1], 1, true⟩, ⟨[], 1, false⟩, ⟨[], 1, false⟩]⟩ : broadcaster).Broadcast
        = some ⟨((∅ : Finmap fun _ : Int => ChanRef).insert 7 1).insert 9 2,
            [⟨[1], 1, true⟩, ⟨[1], 1, false⟩, ⟨[1], 1, false⟩]⟩ ∧
      ([⟨[1], 1, true⟩, ⟨[1], 1, false⟩, ⟨[1], 1, false⟩] : Heap).length = 3 :=
  ⟨by decide, by decide,
    ((Broadcast_shape
      { b := { listeners := ((∅ : Finmap fun _ : Int => ChanRef).insert 7 1).insert 9 2,
               chans := [⟨[1], 1, true⟩, ⟨[], 1, false⟩, ⟨[], 1, false⟩] },
        issued := [(5, 0), (7, 1), (9, 2)], live := [(7, 1), (9, 2)] }).1
      ⟨((∅ : Finmap fun _ : Int => ChanRef).insert 7 1).insert 9 2,
        [⟨[1], 1, true⟩, ⟨[1], 1, false⟩, ⟨[1], 1, false⟩]⟩ (by decide)).2.1⟩


/-- C12, `Broadcast` does not block.  In every state the broadcaster reaches, with any
number of registered channels full, `Broadcast` returns; it is one non-blocking send
per entry of the map, as many as there are registered listeners, run on the state alone
with no receive by a consumer in between; a send to a full channel drops the value and
leaves the channel as it was. -/
theorem Broadcast_no_block (ops : List Op) (s : Sys) (h : Sys.init.run ops = some s) :
    ∃ (b' : broadcaster) (l : List (Sigma fun _ : Int => ChanRef)),
      s.b.Broadcast = some b' ∧
      l.Nodup ∧
      (∀ (id : Int) (c : ChanRef), Sigma.mk id c ∈ l ↔ s.b.listeners.lookup id = some c) ∧
      l.length = s.b.listeners.keys.card ∧
      l.foldl (fun d e => sendTo d e.1 e.2) (some s.b.chans) = some b'.chans ∧
      (∀ (id : Int) (c : ChanRef) (ch : Chan), s.b.listeners.lookup id = some c →
        s.b.chans[c]? = some ch → ch.buf.length = ch.cap → b'.chans[c]? = some ch) := by
  have hs := Inv_reachable h
  obtain ⟨b', hb, -, -, hin, -⟩ := Broadcast_Inv hs
  obtain ⟨l, hnd, hmem, hlen, hfold⟩ := Broadcast_eq_foldl s.b
  refine ⟨b', l, hb, hnd, hmem, hlen, ?_, ?_⟩
  · rw [hb] at hfold
    obtain ⟨chans, hrun, hbc⟩ := Option.map_eq_some'.1 hfold.symm
    rw [hrun, ← hbc]
  · intro id c ch hid hc hfull
    obtain ⟨ch₀, hc₀, -, hch'⟩ := hin id c hid
    rw [hc] at hc₀
    cases hc₀
    rw [hch']
    obtain ⟨hcap, hbuf | hbuf⟩ := hs.slot c ch hc
    · rw [hbuf, hcap] at hfull; cases hfull
    · cases ch
      simp_all

theorem Broadcast_no_block_witness :
    Sys.init.run [Op.register [5], Op.register [7], Op.broadcast, Op.register [9]]
      = some { b := { listeners := (((∅ : Finmap fun _ : Int => ChanRef).insert 5 0).insert 7 1).insert
                        9 2,
                      chans := [⟨[1], 1, false⟩, ⟨[1], 1, false⟩, ⟨[], 1, false⟩] },
               issued := [(5, 0), (7, 1), (9, 2)], live := [(5, 0), (7, 1), (9, 2)] } ∧
      ∃ b', (⟨(((∅ : Finmap fun _ : Int => ChanRef).insert 5 0).insert 7 1).insert 9 2,
          [⟨[1], 1, false⟩, ⟨[1], 1, false⟩, ⟨[], 1, false⟩]⟩ : broadcaster).Broadcast
        = some b' :=
  ⟨by decide,
    (Broadcast_no_block [Op.register [5], Op.register [7], Op.broadcast, Op.register [9]]
      { b := { listeners := (((∅ : Finmap fun _ : Int => ChanRef).insert 5 0).insert 7 1).insert
                 9 2,
               chans := [⟨[1], 1, false⟩, ⟨[1], 1, false⟩, ⟨[], 1, false⟩] },
        issued := [(5, 0), (7, 1), (9, 2)], live := [(5, 0), (7, 1), (9, 2)] }
      (by decide)).imp fun _ hb => hb.elim fun _ hl => hl.1⟩


/-- C13, no slot sharing.  In every state reached from `NewBroadcaster()`: two ids
that are different are mapped to different channels; and a channel registered under
`id` was returned by exactly one `Register` call, that call returned it with `id`, and
the pair is live, that is, `id` was not passed to `Unregister` since. -/
theorem no_slot_sharing (ops : List Op) (s : Sys) (h : Sys.init.run ops = some s) :
    (∀ (id₁ id₂ : Int) (c₁ c₂ : ChanRef), id₁ ≠ id₂ → s.b.listeners.lookup id₁ = some c₁ →
      s.b.listeners.lookup id₂ = some c₂ → c₁ ≠ c₂) ∧
      ∀ (id : Int) (c : ChanRef), s.b.listeners.lookup id = some c →
        (s.issued.map Prod.snd).count c = 1 ∧
          (∀ p ∈ s.issued, p.2 = c → p = (id, c)) ∧
          (id, c) ∈ s.live ∧ (s.live.map Prod.fst).count id = 1 := by
  have hs := Inv_reachable h
  have hnd : (s.issued.map Prod.snd).Nodup := by
    rw [hs.issuedSlots]; exact List.nodup_range _
  constructor
  · intro id₁ id₂ c₁ c₂ hne h₁ h₂ hcc
    subst hcc
    exact hne (hs.inj id₁ id₂ c₁ h₁ h₂)
  · intro id c hid
    have hlive : (id, c) ∈ s.live := (hs.liveIff id c).2 hid
    have hiss : (id, c) ∈ s.issued := hs.liveIssued _ hlive
    refine ⟨?_, ?_, hlive, ?_⟩
    · exact List.count_eq_one_of_mem hnd (List.mem_map.2 ⟨(id, c), hiss, rfl⟩)
    · intro p hp hpc
      exact List.inj_on_of_nodup_map hnd hp hiss hpc
    · exact List.count_eq_one_of_mem hs.liveNodup (List.mem_map.2 ⟨(id, c), hlive, rfl⟩)

theorem no_slot_sharing_witness :
    Sys.init.run [Op.register [5], Op.unregister 5, Op.register [5], Op.register [5, 7]]
      = some { b := { listeners := ((∅ : Finmap fun _ : Int => ChanRef).insert 5 1).insert 7 2,
                      chans := [⟨[], 1, true⟩, ⟨[], 1, false⟩, ⟨[], 1, false⟩] },
               issued := [(5, 0), (5, 1), (7, 2)], live := [(5, 1), (7, 2)] } ∧
      (([(5, 0), (5, 1), (7, 2)] : List (Int × ChanRef)).map Prod.snd).count 1 = 1 :=
  ⟨by decide,
    ((no_slot_sharing [Op.register [5], Op.unregister 5, Op.register [5], Op.register [5, 7]]
      { b := { listeners := ((∅ : Finmap fun _ : Int => ChanRef).insert 5 1).insert 7 2,
               chans := [⟨[], 1, true⟩, ⟨[], 1, false⟩, ⟨[], 1, false⟩] },
        issued := [(5, 0), (5, 1), (7, 2)], live := [(5, 1), (7, 2)] }
      (by decide)).2 5 1 (by decide)).1⟩


/-- C15, the id is the first free draw.  In every state and for every sequence of
draws that holds a value that is not a key, `Register` returns the draw `d_k` with the
least index `k` whose value is not a key: every earlier draw is a key, and the call
consumed exactly the `k + 1` draws up to it. -/
theorem Register_first_free (b : broadcaster) (rand : List Int)
    (hex : ∃ d ∈ rand, d ∉ b.listeners) :
    ∃ (r : Registered) (k : Nat), b.Register rand = some r ∧
      rand[k]? = some r.id ∧ r.id ∉ b.listeners ∧
      (∀ (j : Nat) (d : Int), j < k → rand[j]? = some d → d ∈ b.listeners) ∧
      r.rest = rand.drop (k + 1) ∧ rand.length = (k + 1) + r.rest.length := by
  obtain ⟨id, rest, hf⟩ := findId_total b.listeners rand hex
  obtain ⟨hnone, pre, hpre, hall⟩ := findId_some b.listeners rand id rest hf
  refine ⟨{ id := id, c := b.chans.length,
            b := { listeners := b.listeners.insert id b.chans.length,
                   chans := b.chans ++ [makeChan 1] },
            rest := rest }, pre.length, ?_, ?_, Finmap.lookup_eq_none.1 hnone, ?_, ?_, ?_⟩
  · unfold broadcaster.Register
    rw [hf]
  · rw [hpre, List.getElem?_append_right (le_refl _), Nat.sub_self]
    exact List.getElem?_cons_zero
  · intro j d hj hd
    rw [hpre, List.getElem?_append_left hj] at hd
    exact hall d (List.getElem?_mem hd)
  · rw [hpre]
    simp
  · rw [hpre]
    simp
    omega

theorem Register_first_free_witness :
    (∃ d ∈ ([5, 7, 5, 9, 4] : List Int),
        d ∉ ((∅ : Finmap fun _ : Int => ChanRef).insert 5 0).insert 7 1) ∧
      ∃ (r : Registered) (k : Nat),
        (⟨((∅ : Finmap fun _ : Int => ChanRef).insert 5 0).insert 7 1,
            [⟨[], 1, false⟩, ⟨[], 1, false⟩]⟩ : broadcaster).Register [5, 7, 5, 9, 4] = some r ∧
          ([5, 7, 5, 9, 4] : List Int)[k]? = some r.id :=
  ⟨⟨9, by decide, by decide⟩,
    (Register_first_free
      ⟨((∅ : Finmap fun _ : Int => ChanRef).insert 5 0).insert 7 1,
        [⟨[], 1, false⟩, ⟨[], 1, false⟩]⟩
      [5, 7, 5, 9, 4] ⟨9, by decide, by decide⟩).imp fun _ hr => hr.imp fun _ hk => ⟨hk.1, hk.2.1⟩⟩

/-- C16, `Register` does not fail.  In every state and for every unending stream of
draws in which a value that is not a key occurs, the retry loop ends: there is an index
`k` such that on every prefix of the stream longer than `k` draws `Register` returns,
with the id `draws k`, a new channel, and the map with that one entry added. -/
theorem Register_terminates (b : broadcaster) (draws : Nat → Int)
    (hex : ∃ n, draws n ∉ b.listeners) :
    ∃ k, draws k ∉ b.listeners ∧
      ∀ m, k < m → ∃ r, b.Register ((List.range m).map draws) = some r ∧
        r.id = draws k ∧ r.c = b.chans.length ∧
        r.b = { listeners := b.listeners.insert (draws k) b.chans.length,
                chans := b.chans ++ [makeChan 1] } := by
  classical
  refine ⟨Nat.find hex, Nat.find_spec hex, ?_⟩
  intro m hm
  obtain ⟨rest, hf⟩ := findId_stream b.listeners (Nat.find hex) draws (Nat.find_spec hex)
    (fun j hj => not_not.1 (Nat.find_min hex hj)) m hm
  refine ⟨{ id := draws (Nat.find hex), c := b.chans.length,
            b := { listeners := b.listeners.insert (draws (Nat.find hex)) b.chans.length,
                   chans := b.chans ++ [makeChan 1] },
            rest := rest }, ?_, rfl, rfl, rfl⟩
  unfold broadcaster.Register
  rw [hf]

theorem Register_terminates_witness :
    (∃ n, (fun n : Nat => ((n : Int) + 5)) n ∉
        ((∅ : Finmap fun _ : Int => ChanRef).insert 5 0).insert 6 1) ∧
      ∃ k, (fun n : Nat => ((n : Int) + 5)) k ∉
          ((∅ : Finmap fun _ : Int => ChanRef).insert 5 0).insert 6 1 ∧
        ∀ m, k < m → ∃ r,
          (⟨((∅ : Finmap fun _ : Int => ChanRef).insert 5 0).insert 6 1,
              [⟨[], 1, false⟩, ⟨[], 1, false⟩]⟩ : broadcaster).Register
            ((List.range m).map fun n : Nat => ((n : Int) + 5)) = some r :=
  ⟨⟨2, by decide⟩,
    (Register_terminates
      ⟨((∅ : Finmap fun _ : Int => ChanRef).insert 5 0).insert 6 1,
        [⟨[], 1, false⟩, ⟨[], 1, false⟩]⟩
      (fun n : Nat => ((n : Int) + 5)) ⟨2, by decide⟩).imp fun _ hk =>
        ⟨hk.1, fun m hm => (hk.2 m hm).imp fun _ hr => hr.1⟩⟩


/-- C17, no panic.  In every state reached from `NewBroadcaster()` through `Register`,
`Unregister`, `Broadcast` and consumer receives, every channel in the map exists and
is open; so `Broadcast` returns without a send on a closed channel, and `Unregister`
returns for every id without closing a closed channel. -/
theorem no_panic (ops : List Op) (s : Sys) (h : Sys.init.run ops = some s) :
    (∀ (id : Int) (c : ChanRef), s.b.listeners.lookup id = some c →
      ∃ ch, s.b.chans[c]? = some ch ∧ ch.closed = false) ∧
      (∀ (id : Int) (c : ChanRef), s.b.listeners.lookup id = some c →
        ∃ h', trySend s.b.chans c 1 = some h') ∧
      (∀ (id : Int) (c : ChanRef), s.b.listeners.lookup id = some c →
        ∃ h', closeChan s.b.chans c = some h') ∧
      (∃ b', s.b.Broadcast = some b') ∧
      ∀ id : Int, ∃ b', s.b.Unregister id = some b' := by
  have hs := Inv_reachable h
  refine ⟨hs.openReg, ?_, ?_, ?_, ?_⟩
  · intro id c hid
    obtain ⟨ch, hch, ho⟩ := hs.openReg id c hid
    rw [trySend_eq, hch]
    simp [ho]
  · intro id c hid
    obtain ⟨ch, hch, ho⟩ := hs.openReg id c hid
    unfold closeChan
    rw [hch]
    simp [ho]
  · obtain ⟨b', hb, -⟩ := Broadcast_Inv hs
    exact ⟨b', hb⟩
  · intro id
    rcases hl : s.b.listeners.lookup id with _ | c
    · exact ⟨s.b, Unregister_absent hl⟩
    · obtain ⟨ch, hch, ho⟩ := hs.openReg id c hl
      exact ⟨_, Unregister_present hl hch ho⟩

theorem no_panic_witness :
    Sys.init.run [Op.register [5], Op.register [6], Op.broadcast, Op.unregister 5,
        Op.receive 0, Op.receive 0]
      = some { b := { listeners := (∅ : Finmap fun _ : Int => ChanRef).insert 6 1,
                      chans := [⟨[], 1, true⟩, ⟨[1], 1, false⟩] },
               issued := [(5, 0), (6, 1)], live := [(6, 1)] } ∧
      ∃ b', (⟨(∅ : Finmap fun _ : Int => ChanRef).insert 6 1,
              [⟨[], 1, true⟩, ⟨[1], 1, false⟩]⟩ : broadcaster).Broadcast = some b' :=
  ⟨by decide,
    (no_panic
      [Op.register [5], Op.register [6], Op.broadcast, Op.unregister 5, Op.receive 0,
        Op.receive 0]
      { b := { listeners := (∅ : Finmap fun _ : Int => ChanRef).insert 6 1,
               chans := [⟨[], 1, true⟩, ⟨[1], 1, false⟩] },
        issued := [(5, 0), (6, 1)], live := [(6, 1)] }
      (by decide)).2.2.2.1⟩

/-- C18, `Register` then `Unregister`.  In every state, when `Register` returns
`(id, c)`, `Unregister(id)` on the state it leaves returns; the map is then the map
before the `Register`, every channel that existed before is unchanged, and the only
difference is the one new channel `c`, which is closed and empty, and which is not in
the map when the channels in the map before the `Register` all exist, as they do in
every state of the Go program. -/
theorem Register_Unregister (b : broadcaster) (rand : List Int) (r : Registered)
    (h : b.Register rand = some r) :
    ∃ b', r.b.Unregister r.id = some b' ∧ b'.listeners = b.listeners ∧
      b'.chans = b.chans ++ [{ buf := [], cap := 1, closed := true }] ∧
      (∀ (c : ChanRef) (ch : Chan), b.chans[c]? = some ch → b'.chans[c]? = some ch) ∧
      r.c = b.chans.length ∧
      b'.chans[r.c]? = some { buf := [], cap := 1, closed := true } ∧
      ((∀ k v, b.listeners.lookup k = some v → v < b.chans.length) →
        ∀ k, b'.listeners.lookup k ≠ some r.c) := by
  obtain ⟨hnone, hc, hl, hch, -⟩ := Register_some h
  have hlook : r.b.listeners.lookup r.id = some r.c := by
    rw [hl, Finmap.lookup_insert]
  have hnew : r.b.chans[r.c]? = some (makeChan 1) := by
    rw [hch, hc]; exact List.getElem?_concat_length _ _
  have hchans : r.b.chans.set r.c { makeChan 1 with closed := true } =
      b.chans ++ [{ buf := [], cap := 1, closed := true }] := by
    rw [hch, hc, List.set_append_right _ _ (le_refl _), Nat.sub_self]
    rfl
  have hmap : r.b.listeners.erase r.id = b.listeners := by
    apply Finmap.ext_lookup
    intro x
    by_cases hx : x = r.id
    · subst hx; rw [Finmap.lookup_erase, hnone]
    · rw [Finmap.lookup_erase_ne hx, hl, Finmap.lookup_insert_of_ne _ hx]
  refine ⟨_, Unregister_present hlook hnew rfl, hmap, hchans, ?_, hc, ?_, ?_⟩
  · intro c ch hcc
    dsimp only
    rw [hchans, List.getElem?_append_left (getElem?_lt hcc)]
    exact hcc
  · dsimp only
    rw [hchans, hc]
    exact List.getElem?_concat_length _ _
  · intro hwf k hk
    dsimp only at hk
    rw [hmap] at hk
    have hlt := hwf k r.c hk
    rw [hc] at hlt
    exact lt_irrefl _ hlt

theorem Register_Unregister_witness :
    (⟨(∅ : Finmap fun _ : Int => ChanRef).insert 5 0, [⟨[1], 1, false⟩]⟩ : broadcaster).Register
        [5, 9]
      = some { id := 9, c := 1,
               b := ⟨((∅ : Finmap fun _ : Int => ChanRef).insert 5 0).insert 9 1,
                     [⟨[1], 1, false⟩, ⟨[], 1, false⟩]⟩,
               rest := [] } ∧
      ∃ b', (⟨((∅ : Finmap fun _ : Int => ChanRef).insert 5 0).insert 9 1,
              [⟨[1], 1, false⟩, ⟨[], 1, false⟩]⟩ : broadcaster).Unregister 9 = some b' ∧
        b'.listeners = (∅ : Finmap fun _ : Int => ChanRef).insert 5 0 ∧
        b'.chans = [⟨[1], 1, false⟩, ⟨[], 1, true⟩] :=
  ⟨by decide,
    (Register_Unregister ⟨(∅ : Finmap fun _ : Int => ChanRef).insert 5 0, [⟨[1], 1, false⟩]⟩
      [5, 9]
      { id := 9, c := 1,
        b := ⟨((∅ : Finmap fun _ : Int => ChanRef).insert 5 0).insert 9 1,
              [⟨[1], 1, false⟩, ⟨[], 1, false⟩]⟩,
        rest := [] }
      (by decide)).imp fun _ hb => ⟨hb.1, hb.2.1, hb.2.2.1⟩⟩


/-- C19, `Broadcast` is idempotent.  In every state the broadcaster reaches,
`Broadcast` returns, and a second `Broadcast` right after it, with no receive in
between, returns the same state: same map, same content of every channel. -/
theorem Broadcast_idempotent (ops : List Op) (s : Sys) (h : Sys.init.run ops = some s) :
    ∃ b', s.b.Broadcast = some b' ∧ b'.Broadcast = some b' ∧
      (s.b.Broadcast).bind (fun b₁ => b₁.Broadcast) = s.b.Broadcast := by
  have hs := Inv_reachable h
  obtain ⟨b', hb, hl, -, hin, -⟩ := Broadcast_Inv hs
  have hs' : Inv { s with b := b' } := Inv_broadcast hs hb
  obtain ⟨b'', hb₂, hl₂, -, hin₂, hout₂⟩ := Broadcast_Inv hs'
  have heq : b'' = b' := by
    obtain ⟨m', chans'⟩ := b'
    obtain ⟨m'', chans''⟩ := b''
    dsimp only at hl hl₂ hin hin₂ hout₂
    subst hl₂
    congr 1
    apply List.ext_getElem?
    intro c
    by_cases hreg : ∃ id, m''.lookup id = some c
    · obtain ⟨id, hid⟩ := hreg
      obtain ⟨ch₁, hch₁, -, hch₂⟩ := hin₂ id c hid
      obtain ⟨ch, -, -, hch'⟩ := hin id c (hl ▸ hid)
      rw [hch₂, hch₁]
      rw [hch'] at hch₁
      cases hch₁
      rfl
    · exact hout₂ c (fun id hid => hreg ⟨id, hid⟩)
  rw [heq] at hb₂
  refine ⟨b', hb, hb₂, ?_⟩
  rw [hb]
  exact hb₂

theorem Broadcast_idempotent_witness :
    Sys.init.run [Op.register [5], Op.broadcast, Op.register [6], Op.unregister 5,
        Op.register [8]]
      = some { b := { listeners := ((∅ : Finmap fun _ : Int => ChanRef).insert 6 1).insert 8 2,
                      chans := [⟨[1], 1, true⟩, ⟨[], 1, false⟩, ⟨[], 1, false⟩] },
               issued := [(5, 0), (6, 1), (8, 2)], live := [(6, 1), (8, 2)] } ∧
      ∃ b', (⟨((∅ : Finmap fun _ : Int => ChanRef).insert 6 1).insert 8 2,
              [⟨[1], 1, true⟩, ⟨[], 1, false⟩, ⟨[], 1, false⟩]⟩ : broadcaster).Broadcast
          = some b' ∧ b'.Broadcast = some b' :=
  ⟨by decide,
    (Broadcast_idempotent
      [Op.register [5], Op.broadcast, Op.register [6], Op.unregister 5, Op.register [8]]
      { b := { listeners := ((∅ : Finmap fun _ : Int => ChanRef).insert 6 1).insert 8 2,
               chans := [⟨[1], 1, true⟩, ⟨[], 1, false⟩, ⟨[], 1, false⟩] },
        issued := [(5, 0), (6, 1), (8, 2)], live := [(6, 1), (8, 2)] }
      (by decide)).imp fun _ hb => ⟨hb.1, hb.2.1⟩⟩

end persistentvolume

namespace extender

/-- The `append` loop of `Prioritize` from any list built so far. -/
theorem foldl_append_eq (names : List String) :
    ∀ acc : HostPriorityList,
      names.foldl (fun result node => result ++ [({ Host := node, Score := 1 } : HostPriority)])
        acc = acc ++ names.map fun node => { Host := node, Score := 1 } := by
  induction names with
  | nil => intro acc; simp
  | cons n t ih =>
    intro acc
    rw [List.foldl_cons, ih, List.map_cons, List.append_assoc]
    rfl

/-- C20, the example extender passes its input through.  For every `args` whose
`NodeNames` is not `nil`: `Prioritize` returns no error and a list with one entry per
node name, in the order of `NodeNames`, the i-th entry having the i-th name as `Host`
and the `Score` 1; and `Filter` returns no error and a result whose `NodeNames` is
`args.NodeNames`, whose `Nodes` is `nil` and whose `FailedNodes` is the empty map. -/
theorem Extender_pass_through {Pod NodeList : Type} (args : ExtenderArgs Pod NodeList)
    (names : List String) (h : args.NodeNames = some names) :
    (∃ result : HostPriorityList, Extender.Prioritize args = some (result, none) ∧
      result = names.map (fun node => { Host := node, Score := 1 }) ∧
      result.length = names.length ∧
      ∀ i : Nat, result[i]? = (names[i]?).map fun node => { Host := node, Score := 1 }) ∧
      (Extender.Filter args).2 = none ∧
      (Extender.Filter args).1.NodeNames = args.NodeNames ∧
      (Extender.Filter args).1.Nodes = none ∧
      (Extender.Filter args).1.FailedNodes = ∅ ∧
      (∀ k : String, (Extender.Filter args).1.FailedNodes.lookup k = none) := by
  refine ⟨⟨names.map (fun node => { Host := node, Score := 1 }), ?_, rfl, ?_, ?_⟩,
    rfl, rfl, rfl, rfl, fun k => Finmap.lookup_empty k⟩
  · unfold Extender.Prioritize
    rw [h]
    dsimp only
    rw [foldl_append_eq, List.nil_append]
  · exact List.length_map _ _
  · intro i
    exact List.getElem?_map _ _ _

theorem Extender_pass_through_witness :
    (⟨(), none, some ["node-a", "node-b"]⟩ : ExtenderArgs Unit Unit).NodeNames
        = some ["node-a", "node-b"] ∧
      ∃ result : HostPriorityList,
        Extender.Prioritize (⟨(), none, some ["node-a", "node-b"]⟩ : ExtenderArgs Unit Unit)
          = some (result, none) ∧
        result = [⟨"node-a", 1⟩, ⟨"node-b", 1⟩] :=
  ⟨rfl,
    (Extender_pass_through (⟨(), none, some ["node-a", "node-b"]⟩ : ExtenderArgs Unit Unit)
      ["node-a", "node-b"] rfl).1.imp fun _ hr => ⟨hr.1, hr.2.1⟩⟩

end extender
